import Mathlib

/-!
# SnappyCompressor.h: the buffer-list source adapter and the codec contract

A shallow embedding of `src/compressor/snappy/SnappyCompressor.h`:

* `BufferlistSource` (the `snappy::Source` adapter over a `bufferlist::const_iterator`)
  with `Available`, `Peek`, `Skip`, `get_pos`;
* `SnappyCompressor::compress`, `SnappyCompressor::decompress` (both forms), non-accelerated
  path (`HAVE_QATZIP` undefined);
* the same three methods and the constructor in a build with `HAVE_QATZIP`
  (`SnappyCompressor.create`, `SnappyCompressor.compress`, ...), the delegate `QatAccel`
  being a parameter.

The buffer list and its iterator live in `include/buffer.h`, which is not among the
sources; they are modelled below.  The snappy library is external: it is a parameter
(`Snappy`), each entry point being a client program of the `snappy::Source` interface
(`SourceProg`), so that the library can touch a source only through
`Available` / `Peek` / `Skip`.

Sizes (`size_t`, `unsigned`) are natural numbers: every size that occurs is bounded by
the length of a buffer list, and no arithmetic in the header can wrap on a cursor that
lies within its list.
-/

namespace Ceph

deriving instance DecidableEq for Except

/-- One byte of buffer content. -/
abbrev Byte := UInt8

/-- Ways a call can abort instead of returning: a failed `ceph_assert`, or the
`end_of_buffer` exception of the buffer library. -/
inductive Fault where
  | assert_failed
  | end_of_buffer
deriving DecidableEq, Repr

/-- Modelled from the spec: `bufferlist` (declared in `include/buffer.h`, absent from the
sources) is "an ordered sequence of independently-owned fixed memory regions (segments)
that together represent one logical byte stream". -/
structure bufferlist where
  buffers : List (List Byte)
deriving DecidableEq, Repr

/-- Modelled from the spec: `bufferlist::length()` of the absent `include/buffer.h`, the
number of logical bytes held by all segments. -/
def bufferlist.length (bl : bufferlist) : Nat :=
  (bl.buffers.map List.length).sum

/-- The logical byte stream of a buffer list: its segments one after the other. -/
def bufferlist.bytes (bl : bufferlist) : List Byte :=
  bl.buffers.flatten

/-- Modelled from the spec: `bufferlist::append(ptr, off, len)` of the absent
`include/buffer.h`; the spec says the codec "appends only the actually produced prefix of
the allocated region" to the output buffer: bytes `off .. off+len` of the region become
the last segment. -/
def bufferlist.append (bl : bufferlist) (ptr : List Byte) (off len : Nat) : bufferlist :=
  { buffers := bl.buffers ++ [(ptr.drop off).take len] }

/-- Modelled from the spec: `bufferlist::append(ptr)` of the absent `include/buffer.h`
("append the filled region to output"): the whole region becomes the last segment. -/
def bufferlist.append_ptr (bl : bufferlist) (ptr : List Byte) : bufferlist :=
  bl.append ptr 0 ptr.length

/-- A `const char *` into a buffer list: segment number and offset inside the segment.
The null pointer is `none : Option char_ptr`. -/
structure char_ptr where
  seg : Nat
  idx : Nat
deriving DecidableEq, Repr

/-- Modelled from the spec: `bufferlist::const_iterator` of the absent `include/buffer.h`,
"a lightweight, copyable position marker into a SegmentedBuffer": the list it walks
(shared), the current segment `p` (the number of segments stands for `ls->end()`), the
offset `p_off` inside that segment and the logical offset `off` from the start of the
list.  Copying the structure gives an independent cursor over the same segments. -/
structure const_iterator where
  bl : bufferlist
  p : Nat
  p_off : Nat
  off : Nat
deriving DecidableEq, Repr

/-- Modelled from the spec: `const_iterator::get_remaining()` of the absent
`include/buffer.h`, the bytes between the cursor and the end of the list
(`bl->length() - off`). -/
def const_iterator.get_remaining (it : const_iterator) : Nat :=
  it.bl.length - it.off

/-- The loop of `advance`: walk over the segments from the current one, leaving every
segment that `p_off` reaches the end of.  The first argument is the list of segments from
the current one on. -/
def advance_loop : List (List Byte) → Nat → Nat → Nat × Nat
  | [], p, p_off => (p, p_off)
  | seg :: rest, p, p_off =>
    if seg.length ≤ p_off then advance_loop rest (p + 1) (p_off - seg.length)
    else (p, p_off)

/-- Modelled from the spec: `const_iterator::advance(o)` of the absent `include/buffer.h`;
`Skip` "advances the real cursor by n bytes (which may cross one or more segment
boundaries transparently)".  Moving past the end of the list raises `end_of_buffer`. -/
def const_iterator.advance (it : const_iterator) (o : Nat) : Except Fault const_iterator :=
  let r := advance_loop (it.bl.buffers.drop it.p) it.p (it.p_off + o)
  if it.bl.buffers.length ≤ r.1 ∧ r.2 ≠ 0 then Except.error Fault.end_of_buffer
  else Except.ok { bl := it.bl, p := r.1, p_off := r.2, off := it.off + o }

/-- Modelled from the spec: `bufferlist::begin()` of the absent `include/buffer.h`, the
cursor at logical offset 0: the first segment, then `advance(0)`, which cannot raise. -/
def bufferlist.begin (bl : bufferlist) : const_iterator :=
  let r := advance_loop bl.buffers 0 0
  { bl := bl, p := r.1, p_off := r.2, off := 0 }

/-- Modelled from the spec: `const_iterator::get_ptr_and_advance(want, &data)` of the
absent `include/buffer.h`: "materialize a contiguous view of up to `want` bytes starting at
the current position (the underlying storage may return fewer contiguous bytes than
requested if a segment boundary falls earlier)".  Returns the length of the view, the
value of `data` afterwards, and the cursor moved behind the view.  At the end of the
list the length is 0 and `data` is left as it was. -/
def const_iterator.get_ptr_and_advance (it : const_iterator) (want : Nat)
    (data : Option char_ptr) : Nat × Option char_ptr × const_iterator :=
  match it.bl.buffers[it.p]? with
  | none => (0, data, it)
  | some seg =>
    let l := min (seg.length - it.p_off) want
    if it.p_off + l = seg.length then
      (l, some { seg := it.p, idx := it.p_off },
        { bl := it.bl, p := it.p + 1, p_off := 0, off := it.off + l })
    else
      (l, some { seg := it.p, idx := it.p_off },
        { bl := it.bl, p := it.p, p_off := it.p_off + l, off := it.off + l })

/-- The `len` bytes a client reads at pointer `data` of buffer list `bl`. -/
def bufferlist.read (bl : bufferlist) (data : Option char_ptr) (len : Nat) : List Byte :=
  match data with
  | none => []
  | some a => (((bl.buffers[a.seg]?).getD []).drop a.idx).take len

/-- The class `BufferlistSource`: a cursor and the number of bytes still to hand out. -/
structure BufferlistSource where
  pb : const_iterator
  remaining : Nat
deriving DecidableEq, Repr

/-- The constructor `BufferlistSource(_pb, _input_len)`:
`remaining = std::min(_input_len, pb.get_remaining())`. -/
def BufferlistSource.init (_pb : const_iterator) (_input_len : Nat) : BufferlistSource :=
  { pb := _pb, remaining := min _input_len _pb.get_remaining }

/-- The method `Available()`. -/
def BufferlistSource.Available (s : BufferlistSource) : Nat :=
  s.remaining

/-- The method `Peek(&len)`: the returned pointer, `*len`, and the object afterwards.
The cursor that `get_ptr_and_advance` moves is the copy `ptmp`, which is dropped. -/
def BufferlistSource.Peek (s : BufferlistSource) :
    (Option char_ptr × Nat) × BufferlistSource :=
  let avail := s.Available
  if avail ≠ 0 then
    let ptmp := s.pb
    let r := ptmp.get_ptr_and_advance avail none
    ((r.2.1, r.1), s)
  else
    ((none, 0), s)

/-- The method `Skip(n)`: `ceph_assert(n <= remaining)`, then the cursor advances and
`remaining` drops by `n`. -/
def BufferlistSource.Skip (s : BufferlistSource) (n : Nat) : Except Fault BufferlistSource :=
  if n ≤ s.remaining then
    match s.pb.advance n with
    | Except.ok pb1 => Except.ok { pb := pb1, remaining := s.remaining - n }
    | Except.error e => Except.error e
  else Except.error Fault.assert_failed

/-- The method `get_pos()`. -/
def BufferlistSource.get_pos (s : BufferlistSource) : const_iterator :=
  s.pb

/-- A client of the `snappy::Source` interface: a program that can only ask
`Available()`, `Peek` (it receives the pointer, the reported length and the bytes it may
read there) and `Skip(n)`, and then returns a value. -/
inductive SourceProg (α : Type) where
  | ret : α → SourceProg α
  | Available : (Nat → SourceProg α) → SourceProg α
  | Peek : (Option char_ptr → Nat → List Byte → SourceProg α) → SourceProg α
  | Skip : Nat → SourceProg α → SourceProg α

/-- Run a client program on a `BufferlistSource`: the value it returns and the source
afterwards, or the fault that aborted it. -/
def SourceProg.run {α : Type} : SourceProg α → BufferlistSource → Except Fault (α × BufferlistSource)
  | SourceProg.ret a, s => Except.ok (a, s)
  | SourceProg.Available k, s => (k s.Available).run s
  | SourceProg.Peek k, s =>
    (k s.Peek.1.1 s.Peek.1.2 (s.Peek.2.pb.bl.read s.Peek.1.1 s.Peek.1.2)).run s.Peek.2
  | SourceProg.Skip n k, s =>
    match s.Skip n with
    | Except.ok s1 => k.run s1
    | Except.error e => Except.error e

/-- The entry points of the snappy library that the header calls.  `Compress` returns
the bytes it appended to the sink, in order; `GetUncompressedLength` returns the length
when it could parse one (the `bool` result and `*result` together); `RawUncompress`
returns its `bool` and the bytes it stored at the destination pointer. -/
structure Snappy where
  MaxCompressedLength : Nat → Nat
  Compress : SourceProg (List Byte)
  GetUncompressedLength : SourceProg (Option Nat)
  RawUncompress : SourceProg (Bool × List Byte)

/-- A freshly allocated region of `len` bytes (`buffer::create_small_page_aligned(len)`,
`bufferptr ptr(len)`); its content before anything is stored is taken to be zero. -/
def bufferptr (len : Nat) : List Byte :=
  List.replicate len 0

/-- Storing the bytes `w` from the start of a region (what `UncheckedByteArraySink` and the
array writer of `RawUncompress` do through the raw pointer).  The region keeps its
length; stores behind its end are not part of the region. -/
def store (ptr w : List Byte) : List Byte :=
  (w ++ ptr.drop w.length).take ptr.length

/-- The method `SnappyCompressor::compress(src, dst)`, non-accelerated path: the status
and `dst` afterwards. -/
def compress (lib : Snappy) (src dst : bufferlist) : Except Fault (Int × bufferlist) :=
  let source := BufferlistSource.init src.begin src.length
  let ptr := bufferptr (lib.MaxCompressedLength src.length)
  match lib.Compress.run source with
  | Except.error e => Except.error e
  | Except.ok (w, _) =>
    let ptr1 := store ptr w
    Except.ok (0, dst.append ptr1 0 w.length)

/-- The method `SnappyCompressor::decompress(p, compressed_len, dst)`, non-accelerated
path: the status, the cursor `p` and `dst` afterwards. -/
def decompress_iter (lib : Snappy) (p : const_iterator) (compressed_len : Nat)
    (dst : bufferlist) : Except Fault (Int × const_iterator × bufferlist) :=
  let source_1 := BufferlistSource.init p compressed_len
  match lib.GetUncompressedLength.run source_1 with
  | Except.error e => Except.error e
  | Except.ok (none, _) => Except.ok (-1, p, dst)
  | Except.ok (some res_len, _) =>
    let source_2 := BufferlistSource.init p compressed_len
    let ptr := bufferptr res_len
    match lib.RawUncompress.run source_2 with
    | Except.error e => Except.error e
    | Except.ok ((true, w), source_2a) =>
      Except.ok (0, source_2a.get_pos, dst.append_ptr (store ptr w))
    | Except.ok ((false, _), _) => Except.ok (-2, p, dst)

/-- The method `SnappyCompressor::decompress(src, dst)`, non-accelerated path: the
status and `dst` afterwards (the cursor `i` is a local). -/
def decompress (lib : Snappy) (src dst : bufferlist) : Except Fault (Int × bufferlist) :=
  let i := src.begin
  match decompress_iter lib i src.length dst with
  | Except.error e => Except.error e
  | Except.ok (r, _, dst1) => Except.ok (r, dst1)

/-! ## Cursors that lie within their list, and the stream a source hands out -/

/-- Segment number `i` of a buffer list (empty behind the last one). -/
def bufferlist.seg (bl : bufferlist) (i : Nat) : List Byte :=
  (bl.buffers[i]?).getD []

/-- The logical offset at which segment number `i` starts. -/
def bufferlist.seg_start (bl : bufferlist) (i : Nat) : Nat :=
  ((bl.buffers.take i).map List.length).sum

/-- A cursor that lies within its list: `p` is a segment or the end, `off` is the logical
offset of place `p_off` of segment `p`, and `p_off` is inside the segment or 0. -/
def const_iterator.WF (it : const_iterator) : Prop :=
  it.p ≤ it.bl.buffers.length ∧ it.off = it.bl.seg_start it.p + it.p_off ∧
    (it.p_off = 0 ∨ it.p_off < (it.bl.seg it.p).length)

instance (it : const_iterator) : Decidable it.WF := by
  unfold const_iterator.WF; infer_instance

/-- A cursor that rests on a byte or at the end of the list, as `advance` leaves it
(never at the start of an empty segment). -/
def const_iterator.Normal (it : const_iterator) : Prop :=
  it.p_off < (it.bl.seg it.p).length ∨ (it.p = it.bl.buffers.length ∧ it.p_off = 0)

instance (it : const_iterator) : Decidable it.Normal := by
  unfold const_iterator.Normal; infer_instance

/-- The states a `BufferlistSource` can be in: its cursor lies within the list and the
budget does not exceed what is left behind the cursor. -/
def BufferlistSource.Valid (s : BufferlistSource) : Prop :=
  s.pb.WF ∧ s.remaining ≤ s.pb.get_remaining

instance (s : BufferlistSource) : Decidable s.Valid := by
  unfold BufferlistSource.Valid; infer_instance

/-- The logical window of a source: the `remaining` bytes of the list from the cursor on. -/
def BufferlistSource.window (s : BufferlistSource) : List Byte :=
  (s.pb.bl.bytes.drop s.pb.off).take s.remaining

/-- The pull loop of a consumer: `Peek`, read the view, `Skip` all of it, until nothing is
available or `Peek` reports length 0 (end of stream for the consumer).  Returns the bytes
read and the source afterwards; `fuel` bounds the number of rounds. -/
def drain : Nat → BufferlistSource → List Byte × BufferlistSource
  | 0, s => ([], s)
  | fuel + 1, s =>
    if s.Peek.1.2 = 0 then ([], s.Peek.2)
    else
      match s.Peek.2.Skip s.Peek.1.2 with
      | Except.ok s1 =>
        ((s.Peek.2.pb.bl.read s.Peek.1.1 s.Peek.1.2) ++ (drain fuel s1).1, (drain fuel s1).2)
      | Except.error _ => ([], s.Peek.2)

/-- The byte stream a consumer pulls from a source: every round takes at least one byte,
so `Available()` rounds are enough. -/
def BufferlistSource.stream (s : BufferlistSource) : List Byte :=
  (drain s.Available s).1

/-! ## A small codec written against the source interface

Used to exercise the header on concrete inputs: a stream is a length in unary (that many
bytes 1, then a byte 0) followed by the payload, stored as is. -/

/-- The pull loop as a client program: the bytes read are handed to `k`. -/
def read_loop {α : Type} : Nat → (List Byte → SourceProg α) → SourceProg α
  | 0, k => k []
  | fuel + 1, k =>
    SourceProg.Peek (fun _ len v =>
      if len = 0 then k []
      else SourceProg.Skip len (read_loop fuel (fun rest => k (v ++ rest))))

/-- Read the whole source, then continue with `k`. -/
def read_all {α : Type} (k : List Byte → SourceProg α) : SourceProg α :=
  SourceProg.Available (fun n => read_loop n k)

/-- The stored format: the length in unary, a 0, the payload. -/
def stored_enc (b : List Byte) : List Byte :=
  List.replicate b.length 1 ++ 0 :: b

/-- The length prefix of a stored stream, when there is one. -/
def stored_len (c : List Byte) : Option Nat :=
  let n := (c.takeWhile (fun x => x == 1)).length
  if (c.drop n).head? = some 0 then some n else none

/-- The payload decoder of the stored format: success flag and bytes stored at the
destination (at most the announced length, also when the stream is rejected). -/
def stored_dec (c : List Byte) : Bool × List Byte :=
  match stored_len c with
  | none => (false, [])
  | some n => (decide ((c.drop (n + 1)).length = n), (c.drop (n + 1)).take n)

/-- The stored codec as a `Snappy` library. -/
def stored : Snappy :=
  { MaxCompressedLength := fun n => 2 * n + 1
    Compress := read_all (fun b => SourceProg.ret (stored_enc b))
    GetUncompressedLength := read_all (fun c => SourceProg.ret (stored_len c))
    RawUncompress := read_all (fun c => SourceProg.ret (stored_dec c)) }

/-- A client program whose result depends only on the byte stream it can pull from the
source (and not on how that stream is cut into views): on two valid sources with the same
stream it aborts with the same fault or returns the same value.  The sources meant are
those whose cursor rests on a byte or at the end of the list, as `begin()` and every
`Skip` leave it; on these the stream is the whole logical window, `Available()` bytes
long. -/
def SourceProg.StreamOnly {α : Type} (prog : SourceProg α) : Prop :=
  ∀ s1 s2 : BufferlistSource, s1.Valid → s1.pb.Normal → s2.Valid → s2.pb.Normal →
    s1.stream = s2.stream →
    Except.map Prod.fst (prog.run s1) = Except.map Prod.fst (prog.run s2)

/-- The library is a correct round-trip pair over the byte stream pulled from a source:
from every valid source `Compress` returns, having put into the sink no more than
`MaxCompressedLength` of the stream length, and on every valid source whose stream is
that output `GetUncompressedLength` recovers the length of the original stream and
`RawUncompress` succeeds and stores the original stream.  The sources meant are those
whose cursor rests on a byte or at the end of the list, as `begin()` and every `Skip`
leave it; on these the stream is the whole logical window, `Available()` bytes long. -/
def Snappy.RoundTrip (lib : Snappy) : Prop :=
  ∀ s : BufferlistSource, s.Valid → s.pb.Normal →
    ∃ c s1, lib.Compress.run s = Except.ok (c, s1) ∧
      c.length ≤ lib.MaxCompressedLength s.stream.length ∧
      ∀ s2 : BufferlistSource, s2.Valid → s2.pb.Normal → s2.stream = c →
        (∃ s3, lib.GetUncompressedLength.run s2 = Except.ok (some s.stream.length, s3)) ∧
        (∃ s3, lib.RawUncompress.run s2 = Except.ok ((true, s.stream), s3))

/-! ## The pull loop of the source protocol, and the build with an accelerator -/

/-- The pull protocol run to the end: while `Available()` is not 0, `Peek`, read the view,
`Skip` all of it.  Returns the bytes read and the source afterwards, or `none` when
`fuel` rounds were not enough or a `Skip` aborted. -/
def pull_loop : Nat → BufferlistSource → Option (List Byte × BufferlistSource)
  | 0, s => if s.Available = 0 then some ([], s) else none
  | fuel + 1, s =>
    if s.Available = 0 then some ([], s)
    else
      match s.Peek.2.Skip s.Peek.1.2 with
      | Except.ok s1 =>
        match pull_loop fuel s1 with
        | some r => some ((s.Peek.2.pb.bl.read s.Peek.1.1 s.Peek.1.2) ++ r.1, r.2)
        | none => none
      | Except.error _ => none

/-- The convenience form of `decompress` as the spec words it: the primitive form
"that starts from the beginning of `input` and consumes its entire length", of which the
caller sees the status and the output list. -/
def decompress_convenience_spec (lib : Snappy) (input output : bufferlist) :
    Except Fault (Int × bufferlist) :=
  Except.map (fun r => (r.1, r.2.2)) (decompress_iter lib input.begin input.length output)

/-- The accelerator delegate `qat_accel` (class `QatAccel`, declared outside the header):
its `init` and the three operations the codec forwards to. -/
structure QatAccel where
  init : String → Bool
  compress : bufferlist → bufferlist → Except Fault (Int × bufferlist)
  decompress : bufferlist → bufferlist → Except Fault (Int × bufferlist)
  decompress_iter : const_iterator → Nat → bufferlist →
    Except Fault (Int × const_iterator × bufferlist)

/-- The class `SnappyCompressor` in a build with `HAVE_QATZIP`: the one member the header
sets is `qat_enabled`. -/
structure SnappyCompressor where
  qat_enabled : Bool
deriving DecidableEq, Repr

/-- The constructor `SnappyCompressor(cct)` with `HAVE_QATZIP`:
`qat_enabled = cct->_conf->qat_compressor_enabled && qat_accel.init("snappy")`. -/
def SnappyCompressor.create (qat_compressor_enabled : Bool) (qat_accel : QatAccel) :
    SnappyCompressor :=
  if qat_compressor_enabled && qat_accel.init ("snappy") then { qat_enabled := true }
  else { qat_enabled := false }

/-- The method `compress(src, dst)` with `HAVE_QATZIP`. -/
def SnappyCompressor.compress (self : SnappyCompressor) (lib : Snappy) (qat_accel : QatAccel)
    (src dst : bufferlist) : Except Fault (Int × bufferlist) :=
  if self.qat_enabled then qat_accel.compress src dst
  else Ceph.compress lib src dst

/-- The method `decompress(p, compressed_len, dst)` with `HAVE_QATZIP`. -/
def SnappyCompressor.decompress_iter (self : SnappyCompressor) (lib : Snappy)
    (qat_accel : QatAccel) (p : const_iterator) (compressed_len : Nat) (dst : bufferlist) :
    Except Fault (Int × const_iterator × bufferlist) :=
  if self.qat_enabled then qat_accel.decompress_iter p compressed_len dst
  else Ceph.decompress_iter lib p compressed_len dst

/-- The method `decompress(src, dst)` with `HAVE_QATZIP`; the call at the end is the
iterator form of the same object. -/
def SnappyCompressor.decompress (self : SnappyCompressor) (lib : Snappy) (qat_accel : QatAccel)
    (src dst : bufferlist) : Except Fault (Int × bufferlist) :=
  if self.qat_enabled then qat_accel.decompress src dst
  else
    let i := src.begin
    match self.decompress_iter lib qat_accel i src.length dst with
    | Except.error e => Except.error e
    | Except.ok (r, _, dst1) => Except.ok (r, dst1)

/-! ## Cursor arithmetic -/

theorem advance_loop_spec (segs : List (List Byte)) (p po : Nat) :
    ∃ k, (advance_loop segs p po).1 = p + k ∧ k ≤ segs.length ∧
      ((segs.take k).map List.length).sum + (advance_loop segs p po).2 = po ∧
      (k = segs.length ∨ (advance_loop segs p po).2 < ((segs[k]?).getD []).length) := by
  induction segs generalizing p po with
  | nil => exact ⟨0, by simp [advance_loop]⟩
  | cons seg rest ih =>
    by_cases h : seg.length ≤ po
    · obtain ⟨k, h1, h2, h3, h4⟩ := ih (p + 1) (po - seg.length)
      refine ⟨k + 1, ?_, ?_, ?_, ?_⟩
      · simp only [advance_loop, if_pos h, h1]; omega
      · simpa using h2
      · simp only [advance_loop, if_pos h, List.take_succ_cons, List.map_cons, List.sum_cons]
        omega
      · simp only [advance_loop, if_pos h, List.length_cons, List.getElem?_cons_succ]
        rcases h4 with h4 | h4
        · left; omega
        · right; exact h4
    · refine ⟨0, ?_, ?_, ?_, ?_⟩
      · simp [advance_loop, if_neg h]
      · simp
      · simp [advance_loop, if_neg h]
      · right
        simp only [advance_loop, if_neg h, List.getElem?_cons_zero, Option.getD_some]
        omega

theorem seg_start_add (bl : bufferlist) (p k : Nat) :
    bl.seg_start (p + k) =
      bl.seg_start p + (((bl.buffers.drop p).take k).map List.length).sum := by
  unfold bufferlist.seg_start
  rw [List.take_add, List.map_append, List.sum_append]

theorem seg_start_of_length_le (bl : bufferlist) (p : Nat) (h : bl.buffers.length ≤ p) :
    bl.seg_start p = bl.length := by
  unfold bufferlist.seg_start bufferlist.length
  rw [List.take_of_length_le h]

theorem seg_start_le_length (bl : bufferlist) (p : Nat) : bl.seg_start p ≤ bl.length := by
  unfold bufferlist.seg_start bufferlist.length
  conv => rhs; rw [← List.take_append_drop p bl.buffers]
  rw [List.map_append, List.sum_append]
  omega

theorem seg_drop (bl : bufferlist) (p k : Nat) :
    (((bl.buffers.drop p)[k]?).getD []) = bl.seg (p + k) := by
  unfold bufferlist.seg
  rw [List.getElem?_drop]

theorem seg_start_succ (bl : bufferlist) (p : Nat) :
    bl.seg_start (p + 1) = bl.seg_start p + (bl.seg p).length := by
  rw [seg_start_add]
  congr 1
  unfold bufferlist.seg
  cases h : bl.buffers.drop p with
  | nil =>
    have : bl.buffers.length ≤ p := by simpa using h
    simp [List.getElem?_eq_none this]
  | cons a t =>
    have : bl.buffers[p]? = some a := by
      have := List.getElem?_drop bl.buffers p 0
      rw [h] at this; simpa using this.symm
    simp [this]

theorem WF_off_le (it : const_iterator) (hw : it.WF) : it.off ≤ it.bl.length := by
  obtain ⟨_, hoff, h3⟩ := hw
  have h1 := seg_start_le_length it.bl it.p
  have h2 := seg_start_le_length it.bl (it.p + 1)
  rw [seg_start_succ] at h2
  omega

/-- Advancing a cursor that lies within its list by no more than what is left cannot
raise, and leaves a cursor within the list, resting on a byte or at the end. -/
theorem advance_ok (it : const_iterator) (o : Nat) (hw : it.WF) (ho : o ≤ it.get_remaining) :
    ∃ it1, it.advance o = Except.ok it1 ∧ it1.bl = it.bl ∧ it1.off = it.off + o ∧
      it1.WF ∧ it1.Normal := by
  have hle := WF_off_le it hw
  obtain ⟨hp, hoff, _⟩ := hw
  obtain ⟨k, h1, h2, h3, h4⟩ := advance_loop_spec (it.bl.buffers.drop it.p) it.p (it.p_off + o)
  have hlen : (it.bl.buffers.drop it.p).length = it.bl.buffers.length - it.p := by simp
  have hstart : it.bl.seg_start (it.p + k) + (advance_loop (it.bl.buffers.drop it.p) it.p (it.p_off + o)).2
      = it.off + o := by
    rw [seg_start_add]; omega
  have hrem : it.off + o ≤ it.bl.length := by
    unfold const_iterator.get_remaining at ho
    omega
  have hend : it.bl.buffers.length ≤ it.p + k →
      (advance_loop (it.bl.buffers.drop it.p) it.p (it.p_off + o)).2 = 0 := by
    intro hge
    have := seg_start_of_length_le it.bl (it.p + k) hge
    omega
  have hnot : ¬ (it.bl.buffers.length ≤ (advance_loop (it.bl.buffers.drop it.p) it.p (it.p_off + o)).1 ∧
      (advance_loop (it.bl.buffers.drop it.p) it.p (it.p_off + o)).2 ≠ 0) := by
    rintro ⟨ha, hb⟩
    rw [h1] at ha
    exact hb (hend ha)
  refine ⟨{ bl := it.bl, p := (advance_loop (it.bl.buffers.drop it.p) it.p (it.p_off + o)).1,
            p_off := (advance_loop (it.bl.buffers.drop it.p) it.p (it.p_off + o)).2,
            off := it.off + o },
    by simp only [const_iterator.advance]; rw [if_neg hnot], rfl, rfl, ?_, ?_⟩
  · unfold const_iterator.WF
    dsimp only
    refine ⟨?_, ?_, ?_⟩
    · rw [h1]; omega
    · rw [h1]; omega
    · rcases h4 with h4 | h4
      · left; exact hend (by omega)
      · right; rw [h1, ← seg_drop]; exact h4
  · unfold const_iterator.Normal
    dsimp only
    rcases h4 with h4 | h4
    · right; exact ⟨by rw [h1]; omega, hend (by omega)⟩
    · left; rw [h1, ← seg_drop]; exact h4

theorem begin_spec (bl : bufferlist) :
    bl.begin.bl = bl ∧ bl.begin.off = 0 ∧ bl.begin.WF ∧ bl.begin.Normal := by
  obtain ⟨k, h1, h2, h3, h4⟩ := advance_loop_spec bl.buffers 0 0
  have hz : (advance_loop bl.buffers 0 0).2 = 0 := by omega
  have hs : bl.seg_start k = 0 := by unfold bufferlist.seg_start; omega
  refine ⟨rfl, rfl, ?_, ?_⟩
  · unfold const_iterator.WF bufferlist.begin
    dsimp only
    refine ⟨by omega, ?_, Or.inl hz⟩
    rw [h1, hz]; simp [hs]
  · unfold const_iterator.Normal bufferlist.begin
    dsimp only
    rcases h4 with h4 | h4
    · right; exact ⟨by omega, hz⟩
    · left; rw [h1]; simpa [bufferlist.seg] using h4

/-! ## Peek, Skip and the drained stream -/

theorem length_flatten_take (bl : bufferlist) (p : Nat) :
    ((bl.buffers.take p).flatten).length = bl.seg_start p := by
  unfold bufferlist.seg_start
  rw [List.length_flatten]

/-- The logical bytes from place `po` of segment `p` on: the rest of that segment, then
the later segments. -/
theorem bytes_drop (bl : bufferlist) (p po : Nat) (seg : List Byte)
    (hseg : bl.buffers[p]? = some seg) (hpo : po ≤ seg.length) :
    bl.bytes.drop (bl.seg_start p + po) = seg.drop po ++ (bl.buffers.drop (p + 1)).flatten := by
  have hp : p < bl.buffers.length := by
    rcases Nat.lt_or_ge p bl.buffers.length with h | h
    · exact h
    · rw [List.getElem?_eq_none h] at hseg; cases hseg
  have hsplit : bl.buffers = bl.buffers.take p ++ seg :: bl.buffers.drop (p + 1) := by
    have h1 : bl.buffers.drop p = seg :: bl.buffers.drop (p + 1) := by
      rw [List.drop_eq_getElem_cons hp]
      congr 1
      rw [List.getElem?_eq_getElem hp] at hseg
      exact Option.some.inj hseg
    conv => lhs; rw [← List.take_append_drop p bl.buffers, h1]
  unfold bufferlist.bytes
  conv => lhs; rw [hsplit]
  rw [List.flatten_append, List.flatten_cons, ← length_flatten_take, ← List.drop_drop,
    List.drop_left, List.drop_append_eq_append_drop]
  have : po - seg.length = 0 := by omega
  rw [this, List.drop_zero]

theorem Peek_state (s : BufferlistSource) : s.Peek.2 = s := by
  unfold BufferlistSource.Peek
  dsimp only
  split <;> rfl

theorem get_ptr_len_le (it : const_iterator) (want : Nat) (d : Option char_ptr) :
    (it.get_ptr_and_advance want d).1 ≤ want := by
  unfold const_iterator.get_ptr_and_advance
  split
  · exact Nat.zero_le _
  · dsimp only
    split <;> exact Nat.min_le_right _ _

theorem Peek_len_le (s : BufferlistSource) : s.Peek.1.2 ≤ s.Available := by
  unfold BufferlistSource.Peek
  dsimp only
  split
  · exact get_ptr_len_le _ _ _
  · exact Nat.zero_le _

theorem Peek_of_seg (s : BufferlistSource) (seg : List Byte) (ha : s.Available ≠ 0)
    (hseg : s.pb.bl.buffers[s.pb.p]? = some seg) :
    s.Peek.1 = (some { seg := s.pb.p, idx := s.pb.p_off },
      min (seg.length - s.pb.p_off) s.Available) := by
  unfold BufferlistSource.Peek
  dsimp only
  rw [if_pos ha]
  unfold const_iterator.get_ptr_and_advance
  rw [hseg]
  dsimp only
  split <;> rfl

theorem Peek_of_end (s : BufferlistSource) (hseg : s.pb.bl.buffers[s.pb.p]? = none) :
    s.Peek.1 = (none, 0) := by
  unfold BufferlistSource.Peek
  dsimp only
  split
  · unfold const_iterator.get_ptr_and_advance
    rw [hseg]
  · rfl

/-- What a client reads at the peeked pointer is the front of the logical window. -/
theorem Peek_view (s : BufferlistSource) (hv : s.Valid) (hpos : s.Peek.1.2 ≠ 0) :
    s.pb.bl.read s.Peek.1.1 s.Peek.1.2 = s.window.take s.Peek.1.2 := by
  have ha : s.Available ≠ 0 := by
    intro h
    have := Peek_len_le s
    omega
  cases hseg : s.pb.bl.buffers[s.pb.p]? with
  | none => rw [Peek_of_end s hseg] at hpos; exact absurd rfl hpos
  | some seg =>
    rw [Peek_of_seg s seg ha hseg] at hpos ⊢
    dsimp only at hpos ⊢
    obtain ⟨⟨_, hoff, _⟩, _⟩ := hv
    have hpo : s.pb.p_off ≤ seg.length := by omega
    unfold BufferlistSource.window bufferlist.read
    dsimp only
    rw [hseg, Option.getD_some, hoff, bytes_drop _ _ _ seg hseg hpo, List.take_take]
    have hl : min (seg.length - s.pb.p_off) s.Available ≤ (seg.drop s.pb.p_off).length := by
      rw [List.length_drop]; exact Nat.min_le_left _ _
    rw [List.take_append_of_le_length (by
      rw [List.length_drop]
      unfold BufferlistSource.Available
      omega)]
    congr 1
    unfold BufferlistSource.Available
    omega

/-- A source whose cursor rests on a byte always shows at least one byte while any is
available. -/
theorem Peek_pos (s : BufferlistSource) (hv : s.Valid) (hn : s.pb.Normal)
    (ha : s.Available ≠ 0) : s.Peek.1.2 ≠ 0 := by
  rcases hn with hn | ⟨hn1, hn2⟩
  · cases hseg : s.pb.bl.buffers[s.pb.p]? with
    | none => simp [bufferlist.seg, hseg] at hn
    | some seg =>
      rw [Peek_of_seg s seg ha hseg]
      dsimp only
      simp only [bufferlist.seg, hseg, Option.getD_some] at hn
      omega
  · exfalso
    obtain ⟨⟨_, hoff, _⟩, hr⟩ := hv
    have := seg_start_of_length_le s.pb.bl s.pb.p (by omega)
    unfold const_iterator.get_remaining at hr
    unfold BufferlistSource.Available at ha
    omega

/-- Skipping no more than what is available succeeds from every valid state. -/
theorem Skip_ok (s : BufferlistSource) (n : Nat) (hv : s.Valid) (hn : n ≤ s.Available) :
    ∃ s1, s.Skip n = Except.ok s1 ∧ s1.pb.bl = s.pb.bl ∧ s1.pb.off = s.pb.off + n ∧
      s1.remaining = s.remaining - n ∧ s1.Valid ∧ s1.pb.Normal := by
  obtain ⟨hw, hr⟩ := hv
  unfold BufferlistSource.Available at hn
  obtain ⟨it1, h1, h2, h3, h4, h5⟩ := advance_ok s.pb n hw (by omega)
  refine ⟨{ pb := it1, remaining := s.remaining - n }, ?_, h2, h3, rfl, ⟨h4, ?_⟩, h5⟩
  · unfold BufferlistSource.Skip
    rw [if_pos hn, h1]
  · unfold const_iterator.get_remaining at hr ⊢
    dsimp only
    rw [h2, h3]
    omega

theorem window_split (s s1 : BufferlistSource) (l : Nat) (hl : l ≤ s.remaining)
    (hbl : s1.pb.bl = s.pb.bl) (hoff : s1.pb.off = s.pb.off + l)
    (hrem : s1.remaining = s.remaining - l) :
    s.window = s.window.take l ++ s1.window := by
  unfold BufferlistSource.window
  rw [hbl, hoff, hrem, List.take_take, Nat.min_eq_left hl, ← List.drop_drop]
  have : s.remaining = l + (s.remaining - l) := by omega
  conv => lhs; rw [this, List.take_add]

/-- Draining a valid source whose cursor rests on a byte yields exactly its logical
window and leaves it empty, the cursor behind the window. -/
theorem drain_window (fuel : Nat) (s : BufferlistSource) (hv : s.Valid) (hn : s.pb.Normal)
    (hf : s.remaining ≤ fuel) :
    (drain fuel s).1 = s.window ∧ (drain fuel s).2.Available = 0 ∧
      (drain fuel s).2.pb.off = s.pb.off + s.remaining ∧
      (drain fuel s).2.pb.bl = s.pb.bl ∧ (drain fuel s).2.Valid := by
  induction fuel generalizing s with
  | zero =>
    have h0 : s.remaining = 0 := by omega
    refine ⟨?_, ?_, ?_, rfl, hv⟩
    · simp [drain, BufferlistSource.window, h0]
    · simpa [drain, BufferlistSource.Available] using h0
    · simp [drain, h0]
  | succ fuel ih =>
    by_cases ha : s.Available = 0
    · have h0 : s.remaining = 0 := ha
      have hp : s.Peek.1.2 = 0 := by
        have := Peek_len_le s
        omega
      have hd : drain (fuel + 1) s = ([], s) := by
        simp only [drain, if_pos hp, Peek_state]
      rw [hd]
      refine ⟨?_, ha, by dsimp only; omega, rfl, hv⟩
      simp [BufferlistSource.window, h0]
    · have hp := Peek_pos s hv hn ha
      have hle := Peek_len_le s
      obtain ⟨s1, hs1, hbl, hoff, hrem, hv1, hn1⟩ := Skip_ok s s.Peek.1.2 hv hle
      have hsk : s.Peek.2.Skip s.Peek.1.2 = Except.ok s1 := by rw [Peek_state]; exact hs1
      unfold BufferlistSource.Available at hle
      obtain ⟨i1, i2, i3, i4, i5⟩ := ih s1 hv1 hn1 (by omega)
      have hd : drain (fuel + 1) s =
          (s.pb.bl.read s.Peek.1.1 s.Peek.1.2 ++ (drain fuel s1).1, (drain fuel s1).2) := by
        simp only [drain, if_neg hp, Peek_state, hs1]
      rw [hd]
      refine ⟨?_, i2, by dsimp only; omega, by dsimp only; rw [i4, hbl], i5⟩
      dsimp only
      rw [i1, Peek_view s hv hp]
      exact (window_split s s1 _ hle hbl hoff hrem).symm

/-! ## Client programs and the stored codec -/

/-- Whatever a client program does, it leaves a valid source valid, over the same list,
and the cursor has moved by exactly the number of bytes taken off the budget. -/
theorem run_frame {α : Type} (prog : SourceProg α) (s s1 : BufferlistSource) (a : α)
    (hv : s.Valid) (hr : prog.run s = Except.ok (a, s1)) :
    s1.Valid ∧ s1.pb.bl = s.pb.bl ∧ s1.remaining ≤ s.remaining ∧
      s1.pb.off + s1.remaining = s.pb.off + s.remaining := by
  induction prog generalizing s with
  | ret b =>
    simp only [SourceProg.run, Except.ok.injEq, Prod.mk.injEq] at hr
    obtain ⟨_, rfl⟩ := hr
    exact ⟨hv, rfl, Nat.le_refl _, rfl⟩
  | Available k ih =>
    simp only [SourceProg.run] at hr
    exact ih _ s hv hr
  | Peek k ih =>
    simp only [SourceProg.run, Peek_state] at hr
    exact ih _ _ _ s hv hr
  | Skip n k ih =>
    simp only [SourceProg.run] at hr
    by_cases hn : n ≤ s.Available
    · obtain ⟨s2, h1, h2, h3, h4, h5, _⟩ := Skip_ok s n hv hn
      rw [h1] at hr
      obtain ⟨i1, i2, i3, i4⟩ := ih s2 h5 hr
      unfold BufferlistSource.Available at hn
      exact ⟨i1, by rw [i2, h2], by omega, by omega⟩
    · have : s.Skip n = Except.error Fault.assert_failed := by
        unfold BufferlistSource.Skip
        exact if_neg hn
      rw [this] at hr
      cases hr

/-- The pull loop written as a client program reads what `drain` reads. -/
theorem run_read_loop {α : Type} (fuel : Nat) (k : List Byte → SourceProg α)
    (s : BufferlistSource) (hv : s.Valid) :
    (read_loop fuel k).run s = (k (drain fuel s).1).run (drain fuel s).2 := by
  induction fuel generalizing s k with
  | zero => rfl
  | succ fuel ih =>
    by_cases hp : s.Peek.1.2 = 0
    · simp only [read_loop, SourceProg.run, drain, if_pos hp, Peek_state]
    · obtain ⟨s1, hs1, _, _, _, hv1, _⟩ := Skip_ok s s.Peek.1.2 hv (Peek_len_le s)
      simp only [read_loop, SourceProg.run, drain, if_neg hp, Peek_state, hs1]
      exact ih _ s1 hv1

theorem run_read_all {α : Type} (f : List Byte → α) (s : BufferlistSource) (hv : s.Valid) :
    (read_all (fun b => SourceProg.ret (f b))).run s =
      Except.ok (f s.stream, (drain s.Available s).2) := by
  unfold read_all
  simp only [SourceProg.run]
  rw [run_read_loop _ _ s hv]
  rfl

theorem takeWhile_ones (n : Nat) (b : List Byte) :
    (List.replicate n (1 : Byte) ++ 0 :: b).takeWhile (fun x => x == 1) = List.replicate n 1 := by
  induction n with
  | zero => simp [List.takeWhile]
  | succ n ih => simp [List.replicate_succ, List.takeWhile, ih]

theorem stored_len_enc (b : List Byte) : stored_len (stored_enc b) = some b.length := by
  unfold stored_len stored_enc
  simp only [takeWhile_ones, List.length_replicate]
  rw [List.drop_left' (List.length_replicate _ _)]
  simp

theorem stored_dec_enc (b : List Byte) : stored_dec (stored_enc b) = (true, b) := by
  unfold stored_dec
  rw [stored_len_enc]
  unfold stored_enc
  have h : (List.replicate b.length (1 : Byte) ++ 0 :: b).drop (b.length + 1) = b := by
    rw [← List.drop_drop, List.drop_left' (List.length_replicate _ _)]
    rfl
  simp [h]

theorem stored_enc_length (b : List Byte) : (stored_enc b).length = 2 * b.length + 1 := by
  unfold stored_enc
  simp
  omega

theorem stored_RoundTrip : stored.RoundTrip := by
  intro s hv _
  refine ⟨stored_enc s.stream, (drain s.Available s).2, run_read_all _ s hv, ?_, ?_⟩
  · show _ ≤ 2 * _ + 1
    rw [stored_enc_length]
  · intro s2 hv2 _ h2
    refine ⟨⟨(drain s2.Available s2).2, ?_⟩, ⟨(drain s2.Available s2).2, ?_⟩⟩
    · show (read_all (fun c => SourceProg.ret (stored_len c))).run s2 = _
      rw [run_read_all _ s2 hv2, h2, stored_len_enc]
    · show (read_all (fun c => SourceProg.ret (stored_dec c))).run s2 = _
      rw [run_read_all _ s2 hv2, h2, stored_dec_enc]

theorem stored_StreamOnly : stored.Compress.StreamOnly := by
  intro s1 s2 h1 _ h2 _ h
  show Except.map Prod.fst ((read_all (fun b => SourceProg.ret (stored_enc b))).run s1) =
    Except.map Prod.fst ((read_all (fun b => SourceProg.ret (stored_enc b))).run s2)
  rw [run_read_all _ s1 h1, run_read_all _ s2 h2, h]
  rfl

theorem store_length (ptr w : List Byte) : (store ptr w).length = ptr.length := by
  unfold store
  simp
  omega

theorem store_take (ptr w : List Byte) (h : w.length ≤ ptr.length) :
    (store ptr w).take w.length = w := by
  unfold store
  rw [List.take_take, Nat.min_eq_left h, List.take_left']
  rfl

theorem store_full (ptr w : List Byte) (h : w.length = ptr.length) : store ptr w = w := by
  have := store_take ptr w (by omega)
  rw [h, ← store_length ptr w, List.take_length] at this
  exact this

/-! ## The codec contract -/

theorem length_eq_bytes_length (bl : bufferlist) : bl.length = bl.bytes.length := by
  unfold bufferlist.length bufferlist.bytes
  rw [List.length_flatten]

theorem init_valid (p : const_iterator) (n : Nat) (hw : p.WF) :
    (BufferlistSource.init p n).Valid :=
  ⟨hw, Nat.min_le_right _ _⟩

/-- The source that `compress` and the convenience `decompress` build over a whole list
hands out exactly the logical bytes of the list. -/
theorem stream_init_begin (bl : bufferlist) :
    (BufferlistSource.init bl.begin bl.length).stream = bl.bytes := by
  obtain ⟨h1, h2, h3, h4⟩ := begin_spec bl
  have hv := init_valid bl.begin bl.length h3
  have hrem : (BufferlistSource.init bl.begin bl.length).remaining = bl.length := by
    unfold BufferlistSource.init const_iterator.get_remaining
    dsimp only
    rw [h1, h2]
    simp
  obtain ⟨d1, _⟩ := drain_window (BufferlistSource.init bl.begin bl.length).remaining
    (BufferlistSource.init bl.begin bl.length) hv h4 (Nat.le_refl _)
  unfold BufferlistSource.stream BufferlistSource.Available
  rw [d1]
  unfold BufferlistSource.window
  rw [hrem]
  show ((bl.begin.bl.bytes).drop bl.begin.off).take bl.length = bl.bytes
  rw [h1, h2, List.drop_zero, length_eq_bytes_length, List.take_length]

/-- On a valid source whose cursor rests on a byte or at the end, the stream pulled is
the logical window, and it is `Available()` bytes long. -/
theorem stream_eq_window (s : BufferlistSource) (hv : s.Valid) (hn : s.pb.Normal) :
    s.stream = s.window ∧ s.stream.length = s.Available := by
  obtain ⟨d1, _⟩ := drain_window s.remaining s hv hn (Nat.le_refl _)
  have h : s.stream = s.window := d1
  refine ⟨h, ?_⟩
  rw [h]
  have hr := hv.2
  unfold const_iterator.get_remaining at hr
  rw [length_eq_bytes_length] at hr
  unfold BufferlistSource.window BufferlistSource.Available
  rw [List.length_take, List.length_drop]
  omega

theorem compress_eq (lib : Snappy) (src dst : bufferlist) (w : List Byte)
    (s1 : BufferlistSource)
    (hrun : lib.Compress.run (BufferlistSource.init src.begin src.length) = Except.ok (w, s1))
    (hb : w.length ≤ lib.MaxCompressedLength src.length) :
    compress lib src dst = Except.ok (0, { buffers := dst.buffers ++ [w] }) := by
  unfold compress
  dsimp only
  rw [hrun]
  dsimp only
  unfold bufferlist.append
  rw [List.drop_zero, store_take _ _ (by unfold bufferptr; simpa using hb)]

/-- C1. Round trip: when the library is a correct round-trip pair over the stream pulled
from a source (one whose cursor rests on a byte or at the end), `compress` of any buffer
list (any segmentation, any content) returns 0
with an output `c`, and `decompress` of `c` returns 0 with output bytes equal to the
input bytes. -/
theorem compress_decompress_round_trip (lib : Snappy) (hlib : lib.RoundTrip)
    (src : bufferlist) :
    ∃ c, compress lib src { buffers := [] } = Except.ok (0, c) ∧
      ∃ out, decompress lib c { buffers := [] } = Except.ok (0, out) ∧
        out.bytes = src.bytes := by
  obtain ⟨_, _, hw, hn⟩ := begin_spec src
  obtain ⟨c, s1, hc, hbound, hback⟩ := hlib _ (init_valid src.begin src.length hw) hn
  rw [stream_init_begin] at hbound hback
  rw [← length_eq_bytes_length] at hbound
  refine ⟨{ buffers := [c] }, compress_eq lib src _ c s1 hc hbound, ?_⟩
  have hcb : ({ buffers := [c] } : bufferlist).bytes = c := by
    simp [bufferlist.bytes]
  obtain ⟨_, _, hw2, hn2⟩ := begin_spec { buffers := [c] }
  obtain ⟨⟨s3, hlen⟩, ⟨s4, hraw⟩⟩ := hback _
    (init_valid (bufferlist.begin { buffers := [c] }) (bufferlist.length { buffers := [c] }) hw2)
    hn2 (by rw [stream_init_begin, hcb])
  refine ⟨{ buffers := [src.bytes] }, ?_, by simp [bufferlist.bytes]⟩
  unfold decompress decompress_iter
  dsimp only
  rw [hlen]
  dsimp only
  rw [hraw]
  dsimp only
  unfold bufferlist.append_ptr bufferlist.append
  rw [store_full _ _ (by simp [bufferptr])]
  simp

/-- Witness of C1: the stored codec is a round-trip pair, and a list of three segments
(one of them empty) goes through `compress` and `decompress` unchanged. -/
theorem compress_decompress_round_trip_witness :
    stored.RoundTrip ∧
    (∃ c, compress stored { buffers := [[1, 2], [], [3]] } { buffers := [] } = Except.ok (0, c) ∧
      ∃ out, decompress stored c { buffers := [] } = Except.ok (0, out) ∧
        out.bytes = bufferlist.bytes { buffers := [[1, 2], [], [3]] }) ∧
    compress stored { buffers := [[1, 2], [], [3]] } { buffers := [] } =
      Except.ok (0, { buffers := [[1, 1, 1, 0, 1, 2, 3]] }) ∧
    decompress stored { buffers := [[1, 1, 1, 0, 1, 2, 3]] } { buffers := [] } =
      Except.ok (0, { buffers := [[1, 2, 3]] }) :=
  ⟨stored_RoundTrip,
    compress_decompress_round_trip stored stored_RoundTrip { buffers := [[1, 2], [], [3]] },
    by decide, by decide⟩

theorem decompress_iter_zero (lib : Snappy) (p : const_iterator) (compressed_len : Nat)
    (dst : bufferlist) (p1 : const_iterator) (dst1 : bufferlist)
    (h : decompress_iter lib p compressed_len dst = Except.ok (0, p1, dst1)) :
    ∃ n s1 w s2,
      lib.GetUncompressedLength.run (BufferlistSource.init p compressed_len) =
        Except.ok (some n, s1) ∧
      lib.RawUncompress.run (BufferlistSource.init p compressed_len) =
        Except.ok ((true, w), s2) ∧
      p1 = s2.get_pos ∧ dst1 = dst.append_ptr (store (bufferptr n) w) := by
  unfold decompress_iter at h
  dsimp only at h
  split at h
  · cases h
  · cases h
  · rename_i n s1 hlen
    split at h
    · cases h
    · rename_i w s2 hraw
      simp only [Except.ok.injEq, Prod.mk.injEq, true_and] at h
      exact ⟨n, s1, w, s2, hlen, hraw, h.1.symm, h.2.symm⟩
    · cases h

/-- C2 as stated, refuted: over the three-byte list `[1, 0, 7]` (a stored stream of one
payload byte; the same three bytes are a snappy stream of one literal byte) a call with
`compressed_len = 5` returns 0 and leaves the cursor at offset 3, not at 0 + 5: the
constructor has clamped the budget of both sources to the 3 bytes the list holds. -/
theorem cursor_conservation_counterexample :
    decompress_iter stored
        { bl := { buffers := [[1, 0, 7]] }, p := 0, p_off := 0, off := 0 } 5 { buffers := [] } =
      Except.ok (0, { bl := { buffers := [[1, 0, 7]] }, p := 1, p_off := 0, off := 3 },
        { buffers := [[7]] }) ∧
    const_iterator.WF { bl := { buffers := [[1, 0, 7]] }, p := 0, p_off := 0, off := 0 } ∧
    (3 : Nat) ≠ 0 + 5 := by
  decide

/-- C2, amended: when the iterator form of `decompress` returns 0 on a cursor within its
list, the cursor stays on the same list and within it, and its position afterwards plus
what the raw-decompress step left available in its source equals the position before
plus `min compressed_len (bytes behind the cursor)`.  So the cursor moves by exactly
`compressed_len` when the library read its whole source and `compressed_len` does not
exceed what the list holds behind the cursor. -/
theorem cursor_conservation (lib : Snappy) (p : const_iterator) (compressed_len : Nat)
    (dst : bufferlist) (p1 : const_iterator) (dst1 : bufferlist) (hw : p.WF)
    (h : decompress_iter lib p compressed_len dst = Except.ok (0, p1, dst1)) :
    p1.bl = p.bl ∧ p1.WF ∧
    ∃ w s2, lib.RawUncompress.run (BufferlistSource.init p compressed_len) =
        Except.ok ((true, w), s2) ∧
      p1.off + s2.Available = p.off + min compressed_len p.get_remaining ∧
      (s2.Available = 0 → compressed_len ≤ p.get_remaining →
        p1.off = p.off + compressed_len) := by
  obtain ⟨n, s1, w, s2, _, hraw, hp1, _⟩ := decompress_iter_zero lib p compressed_len dst p1 dst1 h
  obtain ⟨f1, f2, _, f4⟩ := run_frame _ _ _ _ (init_valid p compressed_len hw) hraw
  subst hp1
  refine ⟨f2, f1.1, w, s2, hraw, f4, ?_⟩
  intro h0 hle
  have : s2.get_pos.off + s2.Available = p.off + min compressed_len p.get_remaining := f4
  rw [h0, Nat.min_eq_left hle] at this
  exact this

/-- Witness of C2 (amended): the stored stream `[1, 0, 7]` followed by a trailer byte,
segmented as `[1] [0, 7, 9]`; a call with `compressed_len = 3` returns 0 and moves the
cursor from 0 to 3, across the segment boundary. -/
theorem cursor_conservation_witness :
    decompress_iter stored
        { bl := { buffers := [[1], [0, 7, 9]] }, p := 0, p_off := 0, off := 0 } 3
        { buffers := [] } =
      Except.ok (0, { bl := { buffers := [[1], [0, 7, 9]] }, p := 1, p_off := 2, off := 3 },
        { buffers := [[7]] }) ∧
    ((3 : Nat) = 0 + min 3 (const_iterator.get_remaining
        { bl := { buffers := [[1], [0, 7, 9]] }, p := 0, p_off := 0, off := 0 })) ∧
    ∃ w s2, stored.RawUncompress.run (BufferlistSource.init
          { bl := { buffers := [[1], [0, 7, 9]] }, p := 0, p_off := 0, off := 0 } 3) =
        Except.ok ((true, w), s2) ∧
      (3 : Nat) + s2.Available = 0 + min 3 (const_iterator.get_remaining
        { bl := { buffers := [[1], [0, 7, 9]] }, p := 0, p_off := 0, off := 0 }) ∧
      (s2.Available = 0 → 3 ≤ const_iterator.get_remaining
          { bl := { buffers := [[1], [0, 7, 9]] }, p := 0, p_off := 0, off := 0 } →
        (3 : Nat) = 0 + 3) :=
  ⟨by decide, by decide,
    (cursor_conservation stored
      { bl := { buffers := [[1], [0, 7, 9]] }, p := 0, p_off := 0, off := 0 } 3 { buffers := [] }
      { bl := { buffers := [[1], [0, 7, 9]] }, p := 1, p_off := 2, off := 3 }
      { buffers := [[7]] } (by decide) (by decide)).2.2⟩

/-- C3. Failure atomicity: when the iterator form of `decompress` returns a non-zero
status, the cursor and the output list afterwards are the ones before the call. -/
theorem decompress_failure_atomic (lib : Snappy) (p : const_iterator) (compressed_len : Nat)
    (dst : bufferlist) (st : Int) (p1 : const_iterator) (dst1 : bufferlist)
    (h : decompress_iter lib p compressed_len dst = Except.ok (st, p1, dst1))
    (hst : st ≠ 0) : p1 = p ∧ dst1 = dst ∧ dst1.length = dst.length := by
  unfold decompress_iter at h
  dsimp only at h
  split at h
  · cases h
  · simp only [Except.ok.injEq, Prod.mk.injEq] at h
    obtain ⟨_, h1, h2⟩ := h
    exact ⟨h1.symm, h2.symm, by rw [h2]⟩
  · split at h
    · cases h
    · simp only [Except.ok.injEq, Prod.mk.injEq] at h
      exact absurd h.1.symm hst
    · simp only [Except.ok.injEq, Prod.mk.injEq] at h
      obtain ⟨_, h1, h2⟩ := h
      exact ⟨h1.symm, h2.symm, by rw [h2]⟩

/-- Witness of C3: the first byte alone of the stored stream `[1, 0, 7]` is rejected with
status -1, and a stream with a good length prefix and a short payload with status -2;
cursor and output are untouched both times. -/
theorem decompress_failure_atomic_witness :
    decompress_iter stored { bl := { buffers := [[1]] }, p := 0, p_off := 0, off := 0 } 1
        { buffers := [[9]] } =
      Except.ok (-1, { bl := { buffers := [[1]] }, p := 0, p_off := 0, off := 0 },
        { buffers := [[9]] }) ∧
    decompress_iter stored { bl := { buffers := [[1, 1], [0, 7]] }, p := 0, p_off := 0, off := 0 } 4
        { buffers := [[9]] } =
      Except.ok (-2, { bl := { buffers := [[1, 1], [0, 7]] }, p := 0, p_off := 0, off := 0 },
        { buffers := [[9]] }) ∧
    (({ bl := { buffers := [[1, 1], [0, 7]] }, p := 0, p_off := 0, off := 0 } : const_iterator) =
        { bl := { buffers := [[1, 1], [0, 7]] }, p := 0, p_off := 0, off := 0 } ∧
      ({ buffers := [[9]] } : bufferlist) = { buffers := [[9]] } ∧
      bufferlist.length { buffers := [[9]] } = bufferlist.length { buffers := [[9]] }) :=
  ⟨by decide, by decide,
    decompress_failure_atomic stored
      { bl := { buffers := [[1, 1], [0, 7]] }, p := 0, p_off := 0, off := 0 } 4
      { buffers := [[9]] } (-2)
      { bl := { buffers := [[1, 1], [0, 7]] }, p := 0, p_off := 0, off := 0 }
      { buffers := [[9]] } (by decide) (by decide)⟩

/-- C4. Status mapping of the iterator form of `decompress`: it returns -1 exactly when
length recovery returns without a length, -2 exactly when length recovery gives a length
and the raw decompress returns false, 0 exactly when both succeed; it returns no other
status, and -1 and -2 are negative and different. -/
theorem decompress_status_mapping (lib : Snappy) (p : const_iterator) (compressed_len : Nat)
    (dst : bufferlist) :
    ((∃ p1 dst1, decompress_iter lib p compressed_len dst = Except.ok (-1, p1, dst1)) ↔
      ∃ s1, lib.GetUncompressedLength.run (BufferlistSource.init p compressed_len) =
        Except.ok (none, s1)) ∧
    ((∃ p1 dst1, decompress_iter lib p compressed_len dst = Except.ok (-2, p1, dst1)) ↔
      (∃ n s1, lib.GetUncompressedLength.run (BufferlistSource.init p compressed_len) =
        Except.ok (some n, s1)) ∧
      ∃ w s2, lib.RawUncompress.run (BufferlistSource.init p compressed_len) =
        Except.ok ((false, w), s2)) ∧
    ((∃ p1 dst1, decompress_iter lib p compressed_len dst = Except.ok (0, p1, dst1)) ↔
      (∃ n s1, lib.GetUncompressedLength.run (BufferlistSource.init p compressed_len) =
        Except.ok (some n, s1)) ∧
      ∃ w s2, lib.RawUncompress.run (BufferlistSource.init p compressed_len) =
        Except.ok ((true, w), s2)) ∧
    (∀ st p1 dst1, decompress_iter lib p compressed_len dst = Except.ok (st, p1, dst1) →
      st = -1 ∨ st = -2 ∨ st = 0) ∧
    (-1 : Int) < 0 ∧ (-2 : Int) < 0 ∧ (-1 : Int) ≠ -2 := by
  refine ⟨?_, ?_, ?_, ?_, by decide, by decide, by decide⟩
  · unfold decompress_iter
    dsimp only
    constructor
    · rintro ⟨p1, dst1, h⟩
      split at h
      · cases h
      · rename_i s1 hlen
        exact ⟨s1, hlen⟩
      · split at h
        · cases h
        · simp at h
        · simp at h
    · rintro ⟨s1, hlen⟩
      rw [hlen]
      exact ⟨p, dst, rfl⟩
  · unfold decompress_iter
    dsimp only
    constructor
    · rintro ⟨p1, dst1, h⟩
      split at h
      · cases h
      · simp at h
      · rename_i n s1 hlen
        split at h
        · cases h
        · simp at h
        · rename_i w s2 hraw
          exact ⟨⟨n, s1, hlen⟩, w, s2, hraw⟩
    · rintro ⟨⟨n, s1, hlen⟩, w, s2, hraw⟩
      rw [hlen]
      dsimp only
      rw [hraw]
      exact ⟨p, dst, rfl⟩
  · constructor
    · rintro ⟨p1, dst1, h⟩
      obtain ⟨n, s1, w, s2, hlen, hraw, _, _⟩ :=
        decompress_iter_zero lib p compressed_len dst p1 dst1 h
      exact ⟨⟨n, s1, hlen⟩, w, s2, hraw⟩
    · rintro ⟨⟨n, s1, hlen⟩, w, s2, hraw⟩
      unfold decompress_iter
      dsimp only
      rw [hlen]
      dsimp only
      rw [hraw]
      exact ⟨_, _, rfl⟩
  · intro st p1 dst1 h
    unfold decompress_iter at h
    dsimp only at h
    split at h
    · cases h
    · simp only [Except.ok.injEq, Prod.mk.injEq] at h
      exact Or.inl h.1.symm
    · split at h
      · cases h
      · simp only [Except.ok.injEq, Prod.mk.injEq] at h
        exact Or.inr (Or.inr h.1.symm)
      · simp only [Except.ok.injEq, Prod.mk.injEq] at h
        exact Or.inr (Or.inl h.1.symm)

theorem compress_of_run (lib : Snappy) (src dst : bufferlist) :
    compress lib src dst =
      match Except.map Prod.fst
          (lib.Compress.run (BufferlistSource.init src.begin src.length)) with
      | Except.error e => Except.error e
      | Except.ok w =>
        Except.ok (0, dst.append (store (bufferptr (lib.MaxCompressedLength src.length)) w)
          0 w.length) := by
  unfold compress
  dsimp only
  cases lib.Compress.run (BufferlistSource.init src.begin src.length) with
  | error e => rfl
  | ok r => rfl

/-- C5. Segment-boundary correctness: for a wrapped compressor whose result depends only
on the byte stream it pulls (from sources whose cursor rests on a byte or at the end), two
input lists with the same logical bytes make `compress`
return the same status and leave the same output list, whatever the segmentation. -/
theorem compress_segmentation_independent (lib : Snappy) (hlib : lib.Compress.StreamOnly)
    (src1 src2 dst : bufferlist) (hb : src1.bytes = src2.bytes) :
    compress lib src1 dst = compress lib src2 dst := by
  have hlen : src1.length = src2.length := by
    rw [length_eq_bytes_length, length_eq_bytes_length, hb]
  obtain ⟨_, _, hw1, hn1⟩ := begin_spec src1
  obtain ⟨_, _, hw2, hn2⟩ := begin_spec src2
  have h := hlib _ _ (init_valid src1.begin src1.length hw1) hn1
    (init_valid src2.begin src2.length hw2) hn2
    (by rw [stream_init_begin, stream_init_begin, hb])
  rw [compress_of_run, compress_of_run, h, hlen]

/-- Witness of C5: the stored compressor depends only on the stream, and six bytes cut
into three uneven segments compress to the same output as the same bytes in one. -/
theorem compress_segmentation_independent_witness :
    stored.Compress.StreamOnly ∧
    bufferlist.bytes { buffers := [[1, 2], [3], [4, 5, 6]] } =
      bufferlist.bytes { buffers := [[1, 2, 3, 4, 5, 6]] } ∧
    compress stored { buffers := [[1, 2], [3], [4, 5, 6]] } { buffers := [[8]] } =
      compress stored { buffers := [[1, 2, 3, 4, 5, 6]] } { buffers := [[8]] } ∧
    compress stored { buffers := [[1, 2], [3], [4, 5, 6]] } { buffers := [[8]] } =
      Except.ok (0, { buffers := [[8], [1, 1, 1, 1, 1, 1, 0, 1, 2, 3, 4, 5, 6]] }) :=
  ⟨stored_StreamOnly, by decide,
    compress_segmentation_independent stored stored_StreamOnly
      { buffers := [[1, 2], [3], [4, 5, 6]] } { buffers := [[1, 2, 3, 4, 5, 6]] }
      { buffers := [[8]] } (by decide),
    by decide⟩

/-- C6. Budget clamping: a freshly constructed source has
`Available() = min(requested length, bytes behind the cursor)`; when the request exceeds
what is behind the cursor, `Available()` is what is behind the cursor. -/
theorem init_Available (p : const_iterator) (n : Nat) :
    (BufferlistSource.init p n).Available = min n p.get_remaining ∧
    (p.get_remaining < n → (BufferlistSource.init p n).Available = p.get_remaining) ∧
    (BufferlistSource.init p n).get_pos = p := by
  refine ⟨rfl, ?_, rfl⟩
  intro h
  show min n p.get_remaining = p.get_remaining
  exact Nat.min_eq_right (Nat.le_of_lt h)

/-- C7. Skip contract: from every valid state, `Skip(n)` aborts exactly when
`n > Available()`, and then on the assertion; otherwise it returns, the cursor of
`get_pos()` is over the same list, within it, `n` logical bytes further, and
`Available()` has dropped by `n`. -/
theorem Skip_contract (s : BufferlistSource) (n : Nat) (hv : s.Valid) :
    ((∃ e, s.Skip n = Except.error e) ↔ s.Available < n) ∧
    (s.Available < n → s.Skip n = Except.error Fault.assert_failed) ∧
    (n ≤ s.Available → ∃ s1, s.Skip n = Except.ok s1 ∧
      s1.get_pos.bl = s.get_pos.bl ∧ s1.get_pos.off = s.get_pos.off + n ∧
      s1.get_pos.WF ∧ s1.Available = s.Available - n) := by
  have hfail : s.Available < n → s.Skip n = Except.error Fault.assert_failed := by
    intro h
    unfold BufferlistSource.Skip
    exact if_neg (by unfold BufferlistSource.Available at h; omega)
  have hok : n ≤ s.Available → ∃ s1, s.Skip n = Except.ok s1 ∧
      s1.get_pos.bl = s.get_pos.bl ∧ s1.get_pos.off = s.get_pos.off + n ∧
      s1.get_pos.WF ∧ s1.Available = s.Available - n := by
    intro h
    obtain ⟨s1, h1, h2, h3, h4, h5, _⟩ := Skip_ok s n hv h
    exact ⟨s1, h1, h2, h3, h5.1, h4⟩
  refine ⟨⟨?_, fun h => ⟨_, hfail h⟩⟩, hfail, hok⟩
  rintro ⟨e, he⟩
  by_contra hlt
  obtain ⟨s1, h1, _⟩ := hok (by omega)
  rw [h1] at he
  cases he

/-- Witness of C7: a source of budget 4 over `[1, 2] [] [3, 4, 5] [6]`, one byte into the
list; `Skip(3)` crosses two segment boundaries, `Skip(5)` trips the assertion. -/
theorem Skip_contract_witness :
    BufferlistSource.Valid
      { pb := { bl := { buffers := [[1, 2], [], [3, 4, 5], [6]] }, p := 0, p_off := 1, off := 1 },
        remaining := 4 } ∧
    BufferlistSource.Skip
      { pb := { bl := { buffers := [[1, 2], [], [3, 4, 5], [6]] }, p := 0, p_off := 1, off := 1 },
        remaining := 4 } 3 =
      Except.ok
        { pb := { bl := { buffers := [[1, 2], [], [3, 4, 5], [6]] }, p := 2, p_off := 2, off := 4 },
          remaining := 1 } ∧
    BufferlistSource.Skip
      { pb := { bl := { buffers := [[1, 2], [], [3, 4, 5], [6]] }, p := 0, p_off := 1, off := 1 },
        remaining := 4 } 5 = Except.error Fault.assert_failed :=
  ⟨by decide, by decide,
    (Skip_contract
      { pb := { bl := { buffers := [[1, 2], [], [3, 4, 5], [6]] }, p := 0, p_off := 1, off := 1 },
        remaining := 4 } 5 (by decide)).2.1 (by decide)⟩

/-- C8. Peek is free of side effects and idempotent: the object after `Peek` is the
object before (so `Available()` and `get_pos()` are unchanged), and a second `Peek`
returns the same pointer and length as the first. -/
theorem Peek_idempotent (s : BufferlistSource) :
    s.Peek.2 = s ∧ s.Peek.2.Available = s.Available ∧ s.Peek.2.get_pos = s.get_pos ∧
    s.Peek.2.Peek.1 = s.Peek.1 := by
  have h := Peek_state s
  exact ⟨h, by rw [h], by rw [h], by rw [h]⟩

/-- C9. Peek bound: the length reported by `Peek` is at most `Available()`, and when
`Available()` is 0, `Peek` returns the null pointer and length 0. -/
theorem Peek_bound (s : BufferlistSource) :
    s.Peek.1.2 ≤ s.Available ∧ (s.Available = 0 → s.Peek.1 = (none, 0)) := by
  refine ⟨Peek_len_le s, ?_⟩
  intro h
  unfold BufferlistSource.Peek
  dsimp only
  rw [if_neg (by simp [h])]

/-- C10. Output of `compress`: when the library returns from `Compress` having put the
bytes `w` into the sink, no more of them than the region allocated for
`MaxCompressedLength` holds, `compress` returns 0 and the output list afterwards is its
prior segments followed by one segment holding exactly `w`: its logical bytes are the
prior bytes followed by `w`, and it grew by the length of `w`, not by the size of the
region. -/
theorem compress_output (lib : Snappy) (src dst : bufferlist) (w : List Byte)
    (s1 : BufferlistSource)
    (hrun : lib.Compress.run (BufferlistSource.init src.begin src.length) = Except.ok (w, s1))
    (hb : w.length ≤ lib.MaxCompressedLength src.length) :
    ∃ dst1, compress lib src dst = Except.ok (0, dst1) ∧
      dst1.buffers = dst.buffers ++ [w] ∧ dst1.bytes = dst.bytes ++ w ∧
      dst1.length = dst.length + w.length := by
  refine ⟨{ buffers := dst.buffers ++ [w] }, compress_eq lib src dst w s1 hrun hb, rfl, ?_, ?_⟩
  · simp [bufferlist.bytes]
  · simp [bufferlist.length]

/-- Witness of C10: the stored codec on two bytes in two segments, the output list
holding one segment before; the region has 5 bytes, all 5 are written. -/
theorem compress_output_witness :
    stored.Compress.run (BufferlistSource.init (bufferlist.begin { buffers := [[4], [5]] })
        (bufferlist.length { buffers := [[4], [5]] })) =
      Except.ok ([1, 1, 0, 4, 5],
        { pb := { bl := { buffers := [[4], [5]] }, p := 2, p_off := 0, off := 2 },
          remaining := 0 }) ∧
    ∃ dst1, compress stored { buffers := [[4], [5]] } { buffers := [[9]] } = Except.ok (0, dst1) ∧
      dst1.buffers = [[9]] ++ [[1, 1, 0, 4, 5]] ∧
      dst1.bytes = bufferlist.bytes { buffers := [[9]] } ++ [1, 1, 0, 4, 5] ∧
      dst1.length = bufferlist.length { buffers := [[9]] } + [1, 1, 0, 4, 5].length :=
  ⟨by decide,
    compress_output stored { buffers := [[4], [5]] } { buffers := [[9]] } [1, 1, 0, 4, 5]
      { pb := { bl := { buffers := [[4], [5]] }, p := 2, p_off := 0, off := 2 },
        remaining := 0 } (by decide) (by decide)⟩

theorem append_ptr_spec (dst : bufferlist) (ptr : List Byte) :
    (dst.append_ptr ptr).buffers = dst.buffers ++ [ptr] ∧
    (dst.append_ptr ptr).bytes = dst.bytes ++ ptr ∧
    (dst.append_ptr ptr).length = dst.length + ptr.length := by
  have h : (dst.append_ptr ptr).buffers = dst.buffers ++ [ptr] := by
    unfold bufferlist.append_ptr bufferlist.append
    simp
  refine ⟨h, ?_, ?_⟩
  · unfold bufferlist.bytes
    rw [h]
    simp
  · unfold bufferlist.length
    rw [h]
    simp

/-- C11. Output of `decompress` on success: when the iterator form returns 0, length
recovery had returned a length `n`, and the output list afterwards is its prior segments
followed by one region of exactly `n` bytes; its logical bytes are the prior bytes
followed by that region, and its length grew by exactly `n`. -/
theorem decompress_output (lib : Snappy) (p : const_iterator) (compressed_len : Nat)
    (dst : bufferlist) (p1 : const_iterator) (dst1 : bufferlist)
    (h : decompress_iter lib p compressed_len dst = Except.ok (0, p1, dst1)) :
    ∃ n s1 ptr,
      lib.GetUncompressedLength.run (BufferlistSource.init p compressed_len) =
        Except.ok (some n, s1) ∧
      ptr.length = n ∧ dst1.buffers = dst.buffers ++ [ptr] ∧
      dst1.bytes = dst.bytes ++ ptr ∧ dst1.length = dst.length + n := by
  obtain ⟨n, s1, w, s2, hlen, _, _, hd⟩ := decompress_iter_zero lib p compressed_len dst p1 dst1 h
  have hl : (store (bufferptr n) w).length = n := by
    rw [store_length]
    simp [bufferptr]
  obtain ⟨a1, a2, a3⟩ := append_ptr_spec dst (store (bufferptr n) w)
  subst hd
  exact ⟨n, s1, store (bufferptr n) w, hlen, hl, a1, a2, by rw [a3, hl]⟩

/-- Witness of C11: the stored stream of the two bytes `7, 8`, cut into two segments;
the recovered length is 2 and the output list grows by one region of 2 bytes. -/
theorem decompress_output_witness :
    decompress_iter stored
        { bl := { buffers := [[1, 1], [0, 7, 8]] }, p := 0, p_off := 0, off := 0 } 5
        { buffers := [[9]] } =
      Except.ok (0, { bl := { buffers := [[1, 1], [0, 7, 8]] }, p := 2, p_off := 0, off := 5 },
        { buffers := [[9], [7, 8]] }) ∧
    ∃ n s1 ptr,
      stored.GetUncompressedLength.run (BufferlistSource.init
          { bl := { buffers := [[1, 1], [0, 7, 8]] }, p := 0, p_off := 0, off := 0 } 5) =
        Except.ok (some n, s1) ∧
      ptr.length = n ∧
      bufferlist.buffers { buffers := [[9], [7, 8]] } =
        bufferlist.buffers { buffers := [[9]] } ++ [ptr] ∧
      bufferlist.bytes { buffers := [[9], [7, 8]] } =
        bufferlist.bytes { buffers := [[9]] } ++ ptr ∧
      bufferlist.length { buffers := [[9], [7, 8]] } =
        bufferlist.length { buffers := [[9]] } + n :=
  ⟨by decide,
    decompress_output stored
      { bl := { buffers := [[1, 1], [0, 7, 8]] }, p := 0, p_off := 0, off := 0 } 5
      { buffers := [[9]] }
      { bl := { buffers := [[1, 1], [0, 7, 8]] }, p := 2, p_off := 0, off := 5 }
      { buffers := [[9], [7, 8]] } (by decide)⟩

theorem Skip_result (s s1 : BufferlistSource) (n : Nat) (h : s.Skip n = Except.ok s1) :
    n ≤ s.remaining ∧ s1.remaining = s.remaining - n ∧ s1.pb.bl = s.pb.bl ∧
      s1.pb.off = s.pb.off + n := by
  unfold BufferlistSource.Skip at h
  by_cases hn : n ≤ s.remaining
  · rw [if_pos hn] at h
    unfold const_iterator.advance at h
    dsimp only at h
    split at h
    · rename_i pb1 hadv
      split at hadv
      · cases hadv
      · simp only [Except.ok.injEq] at hadv h
        subst hadv
        subst h
        exact ⟨hn, rfl, rfl, rfl⟩
    · cases h
  · rw [if_neg hn] at h
    cases h

/-- C12 as stated, refuted: `Skip(0)` succeeds (here it moves the cursor off an empty
segment) and leaves `Available()` at 1, not strictly smaller. -/
theorem Skip_strictly_decreasing_counterexample :
    BufferlistSource.Skip
      { pb := { bl := { buffers := [[1], [], [2]] }, p := 1, p_off := 0, off := 1 },
        remaining := 1 } 0 =
      Except.ok
        { pb := { bl := { buffers := [[1], [], [2]] }, p := 2, p_off := 0, off := 1 },
          remaining := 1 } ∧
    BufferlistSource.Valid
      { pb := { bl := { buffers := [[1], [], [2]] }, p := 1, p_off := 0, off := 1 },
        remaining := 1 } ∧
    BufferlistSource.Available
        { pb := { bl := { buffers := [[1], [], [2]] }, p := 2, p_off := 0, off := 1 },
          remaining := 1 } =
      BufferlistSource.Available
        { pb := { bl := { buffers := [[1], [], [2]] }, p := 1, p_off := 0, off := 1 },
          remaining := 1 } := by
  decide

/-- C12, amended: when `Skip(n)` succeeds, `n` was at most `Available()`, and
`Available()` afterwards is `Available()` before minus `n` without wrapping below zero:
never larger than before, and strictly smaller when `n > 0`. -/
theorem Skip_decreasing (s s1 : BufferlistSource) (n : Nat)
    (h : s.Skip n = Except.ok s1) :
    n ≤ s.Available ∧ s1.Available + n = s.Available ∧ s1.Available ≤ s.Available ∧
    (0 < n → s1.Available < s.Available) := by
  obtain ⟨h1, h2, _, _⟩ := Skip_result s s1 n h
  unfold BufferlistSource.Available
  refine ⟨h1, by omega, by omega, ?_⟩
  intro hn
  omega

/-- Witness of C12 (amended): `Skip(2)` takes `Available()` from 3 to 1. -/
theorem Skip_decreasing_witness :
    BufferlistSource.Skip
      { pb := { bl := { buffers := [[1, 2], [3, 4]] }, p := 0, p_off := 1, off := 1 },
        remaining := 3 } 2 =
      Except.ok
        { pb := { bl := { buffers := [[1, 2], [3, 4]] }, p := 1, p_off := 1, off := 3 },
          remaining := 1 } ∧
    (2 ≤ 3 ∧ 1 + 2 = 3 ∧ 1 ≤ 3 ∧ (0 < 2 → 1 < 3)) :=
  ⟨by decide,
    Skip_decreasing
      { pb := { bl := { buffers := [[1, 2], [3, 4]] }, p := 0, p_off := 1, off := 1 },
        remaining := 3 }
      { pb := { bl := { buffers := [[1, 2], [3, 4]] }, p := 1, p_off := 1, off := 3 },
        remaining := 1 } 2 (by decide)⟩

/-- C13. Budget within the buffer: a source freshly constructed over a cursor within its
list is valid, in particular `Available()` is at most the bytes behind its cursor; from a
valid source `Peek` leaves the source as it is, and a `Skip(n)` never raises
`end_of_buffer`, and when it succeeds the source is valid again: `Available()` is at most
the bytes behind the cursor, which lies within the list. -/
theorem budget_within_buffer (p : const_iterator) (len : Nat) (hw : p.WF) :
    (BufferlistSource.init p len).Valid ∧
    (BufferlistSource.init p len).Available ≤
      (BufferlistSource.init p len).get_pos.get_remaining ∧
    ∀ s : BufferlistSource, s.Valid →
      s.Peek.2.Valid ∧
      ∀ n, s.Skip n ≠ Except.error Fault.end_of_buffer ∧
        ∀ s1, s.Skip n = Except.ok s1 →
          s1.Valid ∧ s1.Available ≤ s1.get_pos.get_remaining ∧
          s1.get_pos.off ≤ s1.get_pos.bl.length := by
  refine ⟨init_valid p len hw, (init_valid p len hw).2, ?_⟩
  intro s hv
  refine ⟨by rw [Peek_state]; exact hv, ?_⟩
  intro n
  by_cases hn : n ≤ s.Available
  · obtain ⟨s2, h1, _, _, _, h5, _⟩ := Skip_ok s n hv hn
    rw [h1]
    refine ⟨by simp, ?_⟩
    intro s1 hs1
    simp only [Except.ok.injEq] at hs1
    subst hs1
    exact ⟨h5, h5.2, WF_off_le _ h5.1⟩
  · have hf : s.Skip n = Except.error Fault.assert_failed := by
      unfold BufferlistSource.Skip
      exact if_neg hn
    rw [hf]
    refine ⟨by simp, ?_⟩
    intro s1 hs1
    cases hs1

/-- Witness of C13: a cursor one byte into `[1, 2] [3]` with a request of 9 bytes; the
source gets budget 2, and `Skip(2)` ends exactly at the end of the list. -/
theorem budget_within_buffer_witness :
    const_iterator.WF { bl := { buffers := [[1, 2], [3]] }, p := 0, p_off := 1, off := 1 } ∧
    BufferlistSource.init
        { bl := { buffers := [[1, 2], [3]] }, p := 0, p_off := 1, off := 1 } 9 =
      { pb := { bl := { buffers := [[1, 2], [3]] }, p := 0, p_off := 1, off := 1 },
        remaining := 2 } ∧
    BufferlistSource.Skip
        { pb := { bl := { buffers := [[1, 2], [3]] }, p := 0, p_off := 1, off := 1 },
          remaining := 2 } 2 =
      Except.ok
        { pb := { bl := { buffers := [[1, 2], [3]] }, p := 2, p_off := 0, off := 3 },
          remaining := 0 } ∧
    BufferlistSource.Valid (BufferlistSource.init
        { bl := { buffers := [[1, 2], [3]] }, p := 0, p_off := 1, off := 1 } 9) :=
  ⟨by decide, by decide, by decide,
    (budget_within_buffer
      { bl := { buffers := [[1, 2], [3]] }, p := 0, p_off := 1, off := 1 } 9 (by decide)).1⟩

/-- C14. The convenience form of `decompress` is the primitive form started at the
beginning of `src` with `compressed_len = src.length()`: same fault or same status, and
the same output list. -/
theorem decompress_eq_convenience_spec (lib : Snappy) (src dst : bufferlist) :
    decompress lib src dst = decompress_convenience_spec lib src dst ∧
    (∀ e, decompress lib src dst = Except.error e ↔
      decompress_iter lib src.begin src.length dst = Except.error e) ∧
    (∀ st dst1, decompress lib src dst = Except.ok (st, dst1) ↔
      ∃ p1, decompress_iter lib src.begin src.length dst = Except.ok (st, p1, dst1)) := by
  have h : decompress lib src dst = decompress_convenience_spec lib src dst := by
    unfold decompress decompress_convenience_spec
    dsimp only
    cases decompress_iter lib src.begin src.length dst with
    | error e => rfl
    | ok r => rfl
  refine ⟨h, ?_, ?_⟩
  · intro e
    rw [h]
    unfold decompress_convenience_spec
    cases decompress_iter lib src.begin src.length dst with
    | error e1 => simp [Except.map]
    | ok r => simp [Except.map]
  · intro st dst1
    rw [h]
    unfold decompress_convenience_spec
    cases decompress_iter lib src.begin src.length dst with
    | error e1 => simp [Except.map]
    | ok r =>
      obtain ⟨a, b, c⟩ := r
      simp [Except.map]

/-- C15. Two independent read views: whatever state `s1` length recovery leaves its
source in, the raw-decompress step gets a source that starts at the cursor `p` of entry
with the `Available()` the first source was constructed with, and the call ends as the
raw step on that source decides; on failure of the raw step the cursor returned is the
`p` of entry. -/
theorem decompress_two_views (lib : Snappy) (p : const_iterator) (compressed_len : Nat)
    (dst : bufferlist) (n : Nat) (s1 : BufferlistSource)
    (hlen : lib.GetUncompressedLength.run (BufferlistSource.init p compressed_len) =
      Except.ok (some n, s1)) :
    (BufferlistSource.init p compressed_len).get_pos = p ∧
    (BufferlistSource.init p compressed_len).Available = min compressed_len p.get_remaining ∧
    decompress_iter lib p compressed_len dst =
      match lib.RawUncompress.run (BufferlistSource.init p compressed_len) with
      | Except.error e => Except.error e
      | Except.ok ((true, w), s2) =>
        Except.ok (0, s2.get_pos, dst.append_ptr (store (bufferptr n) w))
      | Except.ok ((false, _), _) => Except.ok (-2, p, dst) := by
  refine ⟨rfl, rfl, ?_⟩
  unfold decompress_iter
  dsimp only
  rw [hlen]

/-- Witness of C15: on the stored stream `[1, 0, 7]` in two segments, length recovery
reads its source to the end (nothing left available, cursor at offset 3), and the raw
step still gets a source at offset 0 with 3 bytes available. -/
theorem decompress_two_views_witness :
    stored.GetUncompressedLength.run (BufferlistSource.init
        { bl := { buffers := [[1, 0], [7]] }, p := 0, p_off := 0, off := 0 } 3) =
      Except.ok (some 1,
        { pb := { bl := { buffers := [[1, 0], [7]] }, p := 2, p_off := 0, off := 3 },
          remaining := 0 }) ∧
    ((BufferlistSource.init
        { bl := { buffers := [[1, 0], [7]] }, p := 0, p_off := 0, off := 0 } 3).get_pos =
      { bl := { buffers := [[1, 0], [7]] }, p := 0, p_off := 0, off := 0 } ∧
    (BufferlistSource.init
        { bl := { buffers := [[1, 0], [7]] }, p := 0, p_off := 0, off := 0 } 3).Available =
      min 3 (const_iterator.get_remaining
        { bl := { buffers := [[1, 0], [7]] }, p := 0, p_off := 0, off := 0 }) ∧
    decompress_iter stored
        { bl := { buffers := [[1, 0], [7]] }, p := 0, p_off := 0, off := 0 } 3 { buffers := [] } =
      match stored.RawUncompress.run (BufferlistSource.init
          { bl := { buffers := [[1, 0], [7]] }, p := 0, p_off := 0, off := 0 } 3) with
      | Except.error e => Except.error e
      | Except.ok ((true, w), s2) =>
        Except.ok (0, s2.get_pos, bufferlist.append_ptr { buffers := [] } (store (bufferptr 1) w))
      | Except.ok ((false, _), _) =>
        Except.ok (-2, { bl := { buffers := [[1, 0], [7]] }, p := 0, p_off := 0, off := 0 },
          { buffers := [] })) ∧
    decompress_iter stored
        { bl := { buffers := [[1, 0], [7]] }, p := 0, p_off := 0, off := 0 } 3 { buffers := [] } =
      Except.ok (0, { bl := { buffers := [[1, 0], [7]] }, p := 2, p_off := 0, off := 3 },
        { buffers := [[7]] }) :=
  ⟨by decide,
    decompress_two_views stored
      { bl := { buffers := [[1, 0], [7]] }, p := 0, p_off := 0, off := 0 } 3 { buffers := [] } 1
      { pb := { bl := { buffers := [[1, 0], [7]] }, p := 2, p_off := 0, off := 3 },
        remaining := 0 } (by decide),
    by decide⟩

theorem read_zero (bl : bufferlist) (d : Option char_ptr) : bl.read d 0 = [] := by
  unfold bufferlist.read
  cases d with
  | none => rfl
  | some a => simp

theorem Peek_view_all (s : BufferlistSource) (hv : s.Valid) :
    s.pb.bl.read s.Peek.1.1 s.Peek.1.2 = s.window.take s.Peek.1.2 := by
  by_cases h : s.Peek.1.2 = 0
  · rw [h, read_zero, List.take_zero]
  · exact Peek_view s hv h

theorem pull_loop_step (fuel : Nat) (s s1 s2 : BufferlistSource) (rest : List Byte)
    (ha : s.Available ≠ 0) (hs : s.Skip s.Peek.1.2 = Except.ok s1)
    (hr : pull_loop fuel s1 = some (rest, s2)) :
    pull_loop (fuel + 1) s = some (s.pb.bl.read s.Peek.1.1 s.Peek.1.2 ++ rest, s2) := by
  simp only [pull_loop, if_neg ha, Peek_state, hs, hr]

/-- From a valid source whose cursor rests on a byte the pull loop needs no more rounds
than there are bytes available. -/
theorem pull_loop_normal (fuel : Nat) (s : BufferlistSource) (hv : s.Valid)
    (hn : s.pb.Normal) (hf : s.remaining ≤ fuel) :
    ∃ s2, pull_loop fuel s = some (s.window, s2) ∧ s2.Available = 0 := by
  induction fuel generalizing s with
  | zero =>
    have h0 : s.Available = 0 := by unfold BufferlistSource.Available; omega
    refine ⟨s, ?_, h0⟩
    have hw : s.window = [] := by
      unfold BufferlistSource.window
      rw [show s.remaining = 0 from h0, List.take_zero]
    simp only [pull_loop, if_pos h0, hw]
  | succ fuel ih =>
    by_cases ha : s.Available = 0
    · refine ⟨s, ?_, ha⟩
      have hw : s.window = [] := by
        unfold BufferlistSource.window
        rw [show s.remaining = 0 from ha, List.take_zero]
      simp only [pull_loop, if_pos ha, hw]
    · have hp := Peek_pos s hv hn ha
      have hle := Peek_len_le s
      obtain ⟨s1, hs1, hbl, hoff, hrem, hv1, hn1⟩ := Skip_ok s s.Peek.1.2 hv hle
      unfold BufferlistSource.Available at hle
      obtain ⟨s2, i1, i2⟩ := ih s1 hv1 hn1 (by omega)
      refine ⟨s2, ?_, i2⟩
      rw [pull_loop_step fuel s s1 s2 _ ha hs1 i1, Peek_view s hv hp]
      rw [← window_split s s1 _ hle hbl hoff hrem]

/-- From any valid source the pull loop ends, after at most one round more than there
are bytes available (the first `Peek` may show nothing when the cursor rests at the start
of an empty segment; the `Skip(0)` that follows moves it on), and has read the logical
window. -/
theorem pull_loop_valid (fuel : Nat) (s : BufferlistSource) (hv : s.Valid)
    (hf : s.remaining + 1 ≤ fuel) :
    ∃ s2, pull_loop fuel s = some (s.window, s2) ∧ s2.Available = 0 := by
  cases fuel with
  | zero => omega
  | succ fuel =>
    by_cases ha : s.Available = 0
    · refine ⟨s, ?_, ha⟩
      have hw : s.window = [] := by
        unfold BufferlistSource.window
        rw [show s.remaining = 0 from ha, List.take_zero]
      simp only [pull_loop, if_pos ha, hw]
    · have hle := Peek_len_le s
      obtain ⟨s1, hs1, hbl, hoff, hrem, hv1, hn1⟩ := Skip_ok s s.Peek.1.2 hv hle
      unfold BufferlistSource.Available at hle
      obtain ⟨s2, i1, i2⟩ := pull_loop_normal fuel s1 hv1 hn1 (by omega)
      refine ⟨s2, ?_, i2⟩
      rw [pull_loop_step fuel s s1 s2 _ ha hs1 i1, Peek_view_all s hv]
      rw [← window_split s s1 _ hle hbl hoff hrem]

/-- C16. The drained stream is the logical window: over a cursor `p` within its list and
a requested length `len`, the loop "`Peek`, then `Skip` the full peeked length, until
`Available()` is 0" ends within `min len (bytes behind p) + 1` rounds, leaves nothing
available, and the views it read, one after the other, are the
`min len (bytes behind p)` logical bytes of the list from the position of `p` on; the
segmentation enters only through the logical bytes. -/
theorem pull_loop_window (p : const_iterator) (len fuel : Nat) (hw : p.WF)
    (hf : min len p.get_remaining + 1 ≤ fuel) :
    ∃ s2, pull_loop fuel (BufferlistSource.init p len) =
        some ((p.bl.bytes.drop p.off).take (min len p.get_remaining), s2) ∧
      s2.Available = 0 :=
  pull_loop_valid fuel (BufferlistSource.init p len) (init_valid p len hw) hf

/-- Witness of C16: a cursor at offset 1 of `[1] [] [2, 3] [4]`, resting at the start of
the empty segment, asked for 2 bytes: three rounds read `[2, 3]`. -/
theorem pull_loop_window_witness :
    const_iterator.WF
      { bl := { buffers := [[1], [], [2, 3], [4]] }, p := 1, p_off := 0, off := 1 } ∧
    pull_loop 3 (BufferlistSource.init
        { bl := { buffers := [[1], [], [2, 3], [4]] }, p := 1, p_off := 0, off := 1 } 2) =
      some ([2, 3],
        { pb := { bl := { buffers := [[1], [], [2, 3], [4]] }, p := 3, p_off := 0, off := 3 },
          remaining := 0 }) ∧
    ∃ s2, pull_loop 3 (BufferlistSource.init
          { bl := { buffers := [[1], [], [2, 3], [4]] }, p := 1, p_off := 0, off := 1 } 2) =
        some (((bufferlist.bytes { buffers := [[1], [], [2, 3], [4]] }).drop 1).take
          (min 2 (const_iterator.get_remaining
            { bl := { buffers := [[1], [], [2, 3], [4]] }, p := 1, p_off := 0, off := 1 })),
          s2) ∧
      s2.Available = 0 :=
  ⟨by decide, by decide,
    pull_loop_window
      { bl := { buffers := [[1], [], [2, 3], [4]] }, p := 1, p_off := 0, off := 1 } 2 3
      (by decide) (by decide)⟩

theorem normal_of_nonempty (s : BufferlistSource) (hv : s.Valid)
    (hne : ∀ seg ∈ s.pb.bl.buffers, seg ≠ []) (ha : s.Available ≠ 0) :
    ∃ seg, s.pb.bl.buffers[s.pb.p]? = some seg ∧ s.pb.p_off < seg.length := by
  obtain ⟨⟨hp, hoff, h3⟩, hr⟩ := hv
  cases hseg : s.pb.bl.buffers[s.pb.p]? with
  | none =>
    exfalso
    have hge : s.pb.bl.buffers.length ≤ s.pb.p := by
      rcases Nat.lt_or_ge s.pb.p s.pb.bl.buffers.length with h | h
      · rw [List.getElem?_eq_getElem h] at hseg; cases hseg
      · exact h
    have hs := seg_start_of_length_le s.pb.bl s.pb.p hge
    have h0 : s.pb.p_off = 0 := by
      rcases h3 with h3 | h3
      · exact h3
      · simp [bufferlist.seg, hseg] at h3
    unfold const_iterator.get_remaining at hr
    unfold BufferlistSource.Available at ha
    omega
  | some seg =>
    refine ⟨seg, rfl, ?_⟩
    have hmem : seg ∈ s.pb.bl.buffers := List.getElem?_mem hseg
    have hpos : 0 < seg.length := List.length_pos.mpr (hne seg hmem)
    rcases h3 with h3 | h3
    · omega
    · simpa [bufferlist.seg, hseg] using h3

/-- C17. Peek progress: over a list whose segments are all non-empty, a valid source
with `Available() > 0` returns from `Peek` a non-null pointer (to the cursor's place) and
the length `min(Available(), bytes left in the current segment)`, which is at least 1
and at most `Available()`; skipping that length succeeds and leaves less available. -/
theorem Peek_progress (s : BufferlistSource) (hv : s.Valid)
    (hne : ∀ seg ∈ s.pb.bl.buffers, seg ≠ []) (ha : 0 < s.Available) :
    s.Peek.1.1 = some { seg := s.pb.p, idx := s.pb.p_off } ∧
    s.Peek.1.2 = min s.Available ((s.pb.bl.seg s.pb.p).length - s.pb.p_off) ∧
    1 ≤ s.Peek.1.2 ∧ s.Peek.1.2 ≤ s.Available ∧
    ∃ s1, s.Skip s.Peek.1.2 = Except.ok s1 ∧ s1.Available < s.Available := by
  have ha0 : s.Available ≠ 0 := by omega
  obtain ⟨seg, hseg, hlt⟩ := normal_of_nonempty s hv hne ha0
  have hpk := Peek_of_seg s seg ha0 hseg
  have hsegeq : s.pb.bl.seg s.pb.p = seg := by simp [bufferlist.seg, hseg]
  have hlen : s.Peek.1.2 = min s.Available (seg.length - s.pb.p_off) := by
    rw [hpk]
    exact Nat.min_comm _ _
  have h1 : 1 ≤ s.Peek.1.2 := by rw [hlen]; omega
  have h2 : s.Peek.1.2 ≤ s.Available := Peek_len_le s
  obtain ⟨s1, hs1, _, _, hrem, _, _⟩ := Skip_ok s s.Peek.1.2 hv h2
  refine ⟨by rw [hpk], by rw [hsegeq]; exact hlen, h1, h2, s1, hs1, ?_⟩
  unfold BufferlistSource.Available at h1 h2 ha ⊢
  omega

/-- Witness of C17: one byte into the first segment of `[1, 2, 3] [4, 5]` with 4 bytes
available, `Peek` shows the 2 bytes left in the segment. -/
theorem Peek_progress_witness :
    BufferlistSource.Peek
        { pb := { bl := { buffers := [[1, 2, 3], [4, 5]] }, p := 0, p_off := 1, off := 1 },
          remaining := 4 } =
      ((some { seg := 0, idx := 1 }, 2),
        { pb := { bl := { buffers := [[1, 2, 3], [4, 5]] }, p := 0, p_off := 1, off := 1 },
          remaining := 4 }) ∧
    (1 : Nat) ≤ (BufferlistSource.Peek
        { pb := { bl := { buffers := [[1, 2, 3], [4, 5]] }, p := 0, p_off := 1, off := 1 },
          remaining := 4 }).1.2 :=
  ⟨by decide,
    (Peek_progress
      { pb := { bl := { buffers := [[1, 2, 3], [4, 5]] }, p := 0, p_off := 1, off := 1 },
        remaining := 4 } (by decide) (by decide) (by decide)).2.2.1⟩

theorem decompress_unfold (lib : Snappy) (src dst : bufferlist) :
    decompress lib src dst =
      match decompress_iter lib src.begin src.length dst with
      | Except.error e => Except.error e
      | Except.ok (r, _, dst1) => Except.ok (r, dst1) := by
  unfold decompress
  rfl

/-- C18. Accelerator selection and fallback: the constructor always yields a codec, and
the codec has `qat_enabled` exactly when the configuration flag is on and
`qat_accel.init("snappy")` succeeded.  With `qat_enabled` off, `compress` and both forms of
`decompress` give the fault or the status, cursor and output list of the header built
without an accelerator; with it on, each of them gives what the delegate returns for the
same arguments. -/
theorem accelerator_selection (qat_compressor_enabled : Bool) (qat_accel : QatAccel)
    (lib : Snappy) :
    ((SnappyCompressor.create qat_compressor_enabled qat_accel).qat_enabled = true ↔
      qat_compressor_enabled = true ∧ qat_accel.init ("snappy") = true) ∧
    ((SnappyCompressor.create qat_compressor_enabled qat_accel).qat_enabled = false ↔
      qat_compressor_enabled = false ∨ qat_accel.init ("snappy") = false) ∧
    (∀ self : SnappyCompressor, self.qat_enabled = false →
      ∀ (src dst : bufferlist) (p : const_iterator) (compressed_len : Nat),
        self.compress lib qat_accel src dst = compress lib src dst ∧
        self.decompress lib qat_accel src dst = decompress lib src dst ∧
        self.decompress_iter lib qat_accel p compressed_len dst =
          decompress_iter lib p compressed_len dst) ∧
    (∀ self : SnappyCompressor, self.qat_enabled = true →
      ∀ (src dst : bufferlist) (p : const_iterator) (compressed_len : Nat),
        self.compress lib qat_accel src dst = qat_accel.compress src dst ∧
        self.decompress lib qat_accel src dst = qat_accel.decompress src dst ∧
        self.decompress_iter lib qat_accel p compressed_len dst =
          qat_accel.decompress_iter p compressed_len dst) := by
  refine ⟨?_, ?_, ?_, ?_⟩
  · unfold SnappyCompressor.create
    cases qat_compressor_enabled <;> cases h : qat_accel.init ("snappy") <;> simp
  · unfold SnappyCompressor.create
    cases qat_compressor_enabled <;> cases h : qat_accel.init ("snappy") <;> simp
  · intro self hoff src dst p compressed_len
    have hit : ∀ (q : const_iterator) (n : Nat) (d : bufferlist),
        self.decompress_iter lib qat_accel q n d = decompress_iter lib q n d := by
      intro q n d
      unfold SnappyCompressor.decompress_iter
      rw [hoff]
      rfl
    refine ⟨?_, ?_, hit p compressed_len dst⟩
    · unfold SnappyCompressor.compress
      rw [hoff]
      rfl
    · unfold SnappyCompressor.decompress
      rw [hoff, decompress_unfold]
      dsimp only
      rw [hit]
      rfl
  · intro self hon src dst p compressed_len
    refine ⟨?_, ?_, ?_⟩
    · unfold SnappyCompressor.compress
      rw [hon]
      rfl
    · unfold SnappyCompressor.decompress
      rw [hon]
      rfl
    · unfold SnappyCompressor.decompress_iter
      rw [hon]
      rfl

end Ceph
